import Mathlib

/-!
Verification of the `avail` repository's radix-16 Merkle-Patricia trie
(`src/trie.rs`) and SCALE block-header codec (`src/header.rs`).

The trie facade stores its entries in a `BTreeMap<Vec<u8>, Vec<u8>>`; we embed
it as an association list of byte-string keys to byte-string values kept in
strictly increasing lexicographic key order, which is the representation
invariant of the source map.  Bytes are `Nat`s; all bounds that matter are
carried as explicit hypotheses.
-/

set_option maxHeartbeats 1000000

namespace Avail

/-- Strict lexicographic order on byte-string keys, the iteration order of the
source `BTreeMap<Vec<u8>, _>`. -/
def keyLt : List Nat → List Nat → Bool
  | [], [] => false
  | [], _ :: _ => true
  | _ :: _, [] => false
  | a :: as, b :: bs => if a < b then true else if b < a then false else keyLt as bs

theorem keyLt_irrefl : ∀ a : List Nat, keyLt a a = false := by
  intro a
  induction a with
  | nil => rfl
  | cons x xs ih => simp [keyLt, ih]

theorem keyLt_trans : ∀ a b c : List Nat,
    keyLt a b = true → keyLt b c = true → keyLt a c = true := by
  intro a
  induction a with
  | nil =>
    intro b c hab hbc
    cases b with
    | nil => exact absurd hab (by simp [keyLt])
    | cons y ys =>
      cases c with
      | nil => exact absurd hbc (by simp [keyLt])
      | cons z zs => simp [keyLt]
  | cons x xs ih =>
    intro b c hab hbc
    cases b with
    | nil => exact absurd hab (by simp [keyLt])
    | cons y ys =>
      cases c with
      | nil => exact absurd hbc (by simp [keyLt])
      | cons z zs =>
        simp only [keyLt] at hab hbc ⊢
        by_cases hxy : x < y
        · by_cases hyz : y < z
          · simp [Nat.lt_trans hxy hyz]
          · simp only [if_pos hxy] at hab
            by_cases hzy : z < y
            · exact absurd hbc (by simp [hyz, hzy])
            · have : y = z := Nat.le_antisymm (Nat.le_of_not_lt hzy) (Nat.le_of_not_lt hyz)
              subst this
              simp [hxy]
        · by_cases hyx : y < x
          · exact absurd hab (by simp [hxy, hyx])
          · have hxyeq : x = y := Nat.le_antisymm (Nat.le_of_not_lt hyx) (Nat.le_of_not_lt hxy)
            subst hxyeq
            simp only [if_neg hxy, Nat.lt_irrefl, if_neg (by omega : ¬ x < x)] at hab
            by_cases hxz : x < z
            · simp [hxz]
            · by_cases hzx : z < x
              · exact absurd hbc (by simp [hxz, hzx])
              · have : x = z := Nat.le_antisymm (Nat.le_of_not_lt hzx) (Nat.le_of_not_lt hxz)
                subst this
                simp only [if_neg hxz, if_neg (by omega : ¬ x < x)] at hbc ⊢
                exact ih _ _ hab hbc

theorem keyLt_conn : ∀ a b : List Nat,
    keyLt a b = false → keyLt b a = false → a = b := by
  intro a
  induction a with
  | nil =>
    intro b hab _
    cases b with
    | nil => rfl
    | cons y ys => exact absurd hab (by simp [keyLt])
  | cons x xs ih =>
    intro b hab hba
    cases b with
    | nil => exact absurd hba (by simp [keyLt])
    | cons y ys =>
      simp only [keyLt] at hab hba
      by_cases hxy : x < y
      · exact absurd hab (by simp [hxy])
      · by_cases hyx : y < x
        · exact absurd hba (by simp [hxy, hyx])
        · have hxyeq : x = y := Nat.le_antisymm (Nat.le_of_not_lt hyx) (Nat.le_of_not_lt hxy)
          subst hxyeq
          simp only [if_neg hxy, if_neg (by omega : ¬ x < x)] at hab hba
          rw [ih ys hab hba]

theorem keyLt_asymm {a b : List Nat} (h : keyLt a b = true) : keyLt b a = false := by
  by_contra hc
  have hba : keyLt b a = true := by
    cases hb : keyLt b a with
    | false => exact absurd hb hc
    | true => rfl
  have := keyLt_trans a b a h hba
  rw [keyLt_irrefl] at this
  exact absurd this (by simp)

theorem keyLt_ne {a b : List Nat} (h : keyLt a b = true) : a ≠ b := by
  intro he
  subst he
  rw [keyLt_irrefl] at h
  exact absurd h (by simp)

/-- One entry of the trie's underlying map. -/
abbrev Entry := List Nat × List Nat

/-- Lookup in the association list, mirroring `BTreeMap::get`. -/
def assocGet (k : List Nat) : List Entry → Option (List Nat)
  | [] => none
  | (k', v) :: t => if k = k' then some v else assocGet k t

/-- Insertion keeping the strictly-increasing key order, mirroring
`BTreeMap::insert` (an upsert). -/
def btreeInsert (k v : List Nat) : List Entry → List Entry
  | [] => [(k, v)]
  | (k', v') :: t =>
    if keyLt k k' then (k, v) :: (k', v') :: t
    else if keyLt k' k then (k', v') :: btreeInsert k v t
    else (k, v) :: t

/-- Removal of a key, mirroring `BTreeMap::remove`'s effect on the map. -/
def btreeErase (k : List Nat) : List Entry → List Entry
  | [] => []
  | (k', v') :: t => if k = k' then t else (k', v') :: btreeErase k t

/-- The strictly-increasing key order invariant of the source `BTreeMap`. -/
def sortedKeys : List Entry → Bool
  | [] => true
  | [_] => true
  | a :: b :: t => keyLt a.1 b.1 && sortedKeys (b :: t)

/-- All keys of `l` are strictly greater than `k`. -/
def ltAllKeys (k : List Nat) (l : List Entry) : Bool :=
  l.all fun p => keyLt k p.1

theorem sortedKeys_cons : ∀ {a : Entry} {l : List Entry},
    sortedKeys (a :: l) = true → ltAllKeys a.1 l = true ∧ sortedKeys l = true := by
  intro a l
  induction l generalizing a with
  | nil => intro _; exact ⟨rfl, rfl⟩
  | cons b t ih =>
    intro h
    simp only [sortedKeys, Bool.and_eq_true] at h
    obtain ⟨hab, hbt⟩ := h
    obtain ⟨hb_all, hb_sorted⟩ := ih hbt
    refine ⟨?_, hbt⟩
    simp only [ltAllKeys, List.all_cons, Bool.and_eq_true]
    refine ⟨hab, ?_⟩
    simp only [ltAllKeys, List.all_eq_true] at hb_all ⊢
    intro p hp
    exact keyLt_trans _ _ _ hab (hb_all p hp)

theorem sortedKeys_cons_of (a : Entry) (l : List Entry)
    (hl : sortedKeys l = true)
    (hhead : ∀ b t, l = b :: t → keyLt a.1 b.1 = true) :
    sortedKeys (a :: l) = true := by
  cases l with
  | nil => rfl
  | cons b t =>
    simp only [sortedKeys, Bool.and_eq_true]
    exact ⟨hhead b t rfl, hl⟩

theorem assocGet_none_of_ltAll {k : List Nat} {l : List Entry}
    (h : ltAllKeys k l = true) : assocGet k l = none := by
  induction l with
  | nil => rfl
  | cons p t ih =>
    simp only [ltAllKeys, List.all_cons, Bool.and_eq_true] at h
    obtain ⟨hk, ht⟩ := h
    simp only [assocGet]
    rw [if_neg (keyLt_ne hk), ih ht]

/-- Extensionality for sorted association lists: the map contents determine
the representation. -/
theorem sorted_ext : ∀ (l1 l2 : List Entry),
    sortedKeys l1 = true → sortedKeys l2 = true →
    (∀ k, assocGet k l1 = assocGet k l2) → l1 = l2 := by
  intro l1
  induction l1 with
  | nil =>
    intro l2 _ hs2 hget
    cases l2 with
    | nil => rfl
    | cons p t =>
      have := hget p.1
      simp [assocGet] at this
  | cons p1 t1 ih =>
    intro l2 hs1 hs2 hget
    cases l2 with
    | nil =>
      have := hget p1.1
      simp [assocGet] at this
    | cons p2 t2 =>
      obtain ⟨hall1, hst1⟩ := sortedKeys_cons hs1
      obtain ⟨hall2, hst2⟩ := sortedKeys_cons hs2
      have hkeys : p1.1 = p2.1 := by
        by_contra hne
        cases h12 : keyLt p1.1 p2.1 with
        | true =>
          have h1 : assocGet p1.1 ((p2 :: t2) : List Entry) = none := by
            simp only [assocGet]
            rw [if_neg (keyLt_ne h12)]
            apply assocGet_none_of_ltAll
            simp only [ltAllKeys, List.all_eq_true] at hall2 ⊢
            intro q hq
            exact keyLt_trans _ _ _ h12 (hall2 q hq)
          have h2 := hget p1.1
          rw [h1] at h2
          simp [assocGet] at h2
        | false =>
          cases h21 : keyLt p2.1 p1.1 with
          | true =>
            have h1 : assocGet p2.1 ((p1 :: t1) : List Entry) = none := by
              simp only [assocGet]
              rw [if_neg (keyLt_ne h21)]
              apply assocGet_none_of_ltAll
              simp only [ltAllKeys, List.all_eq_true] at hall1 ⊢
              intro q hq
              exact keyLt_trans _ _ _ h21 (hall1 q hq)
            have h2 := hget p2.1
            rw [h1] at h2
            simp [assocGet] at h2
          | false =>
            exact hne (keyLt_conn _ _ h12 h21)
      have hvals : p1.2 = p2.2 := by
        have := hget p1.1
        simp only [assocGet, if_pos rfl, hkeys, if_pos rfl] at this
        exact Option.some.inj this
      have htails : t1 = t2 := by
        apply ih t2 hst1 hst2
        intro k
        by_cases hk1 : k = p1.1
        · subst hk1
          rw [assocGet_none_of_ltAll hall1, hkeys, assocGet_none_of_ltAll hall2]
        · have := hget k
          simp only [assocGet, if_neg hk1, if_neg (hkeys ▸ hk1)] at this
          exact this
      calc p1 :: t1 = (p1.1, p1.2) :: t1 := by rw [Prod.mk.eta]
        _ = (p2.1, p2.2) :: t2 := by rw [hkeys, hvals, htails]
        _ = p2 :: t2 := by rw [Prod.mk.eta]

theorem ltAllKeys_insert {x k v : List Nat} {l : List Entry}
    (hl : ltAllKeys x l = true) (hk : keyLt x k = true) :
    ltAllKeys x (btreeInsert k v l) = true := by
  induction l with
  | nil => simp [btreeInsert, ltAllKeys, hk]
  | cons p t ih =>
    simp only [ltAllKeys, List.all_cons, Bool.and_eq_true] at hl
    obtain ⟨hp, ht⟩ := hl
    simp only [btreeInsert]
    by_cases h1 : keyLt k p.1 = true
    · simp only [if_pos h1, ltAllKeys, List.all_cons, Bool.and_eq_true]
      exact ⟨hk, hp, ht⟩
    · rw [if_neg (by simp [h1])]
      by_cases h2 : keyLt p.1 k = true
      · simp only [if_pos h2, ltAllKeys, List.all_cons, Bool.and_eq_true]
        exact ⟨hp, ih ht⟩
      · rw [if_neg (by simp [h2])]
        simp only [ltAllKeys, List.all_cons, Bool.and_eq_true]
        exact ⟨hk, ht⟩

theorem sortedKeys_insert (k v : List Nat) : ∀ (l : List Entry),
    sortedKeys l = true → sortedKeys (btreeInsert k v l) = true := by
  intro l
  induction l with
  | nil => intro _; rfl
  | cons p t ih =>
    intro hs
    obtain ⟨hall, hst⟩ := sortedKeys_cons hs
    simp only [btreeInsert]
    by_cases h1 : keyLt k p.1 = true
    · simp only [if_pos h1, sortedKeys, Bool.and_eq_true]
      exact ⟨h1, hs⟩
    · rw [if_neg (by simp [h1])]
      by_cases h2 : keyLt p.1 k = true
      · simp only [if_pos h2]
        apply sortedKeys_cons_of _ _ (ih hst)
        intro b tb hb
        have : ltAllKeys p.1 (btreeInsert k v t) = true := ltAllKeys_insert hall h2
        rw [hb] at this
        simp only [ltAllKeys, List.all_cons, Bool.and_eq_true] at this
        exact this.1
      · rw [if_neg (by simp [h2])]
        have hkeq : p.1 = k := keyLt_conn _ _ (by cases h : keyLt p.1 k; rfl; exact absurd h h2)
          (by cases h : keyLt k p.1; rfl; exact absurd h h1)
        apply sortedKeys_cons_of _ _ hst
        intro b tb hb
        have : ltAllKeys p.1 t = true := hall
        rw [hb] at this
        simp only [ltAllKeys, List.all_cons, Bool.and_eq_true] at this
        rw [← hkeq]
        exact this.1

theorem ltAllKeys_erase {x k : List Nat} {l : List Entry}
    (hl : ltAllKeys x l = true) : ltAllKeys x (btreeErase k l) = true := by
  induction l with
  | nil => rfl
  | cons p t ih =>
    simp only [ltAllKeys, List.all_cons, Bool.and_eq_true] at hl
    obtain ⟨hp, ht⟩ := hl
    simp only [btreeErase]
    by_cases hk : k = p.1
    · simp only [if_pos hk]
      exact ht
    · rw [if_neg hk]
      simp only [ltAllKeys, List.all_cons, Bool.and_eq_true]
      exact ⟨hp, ih ht⟩

theorem sortedKeys_erase (k : List Nat) : ∀ (l : List Entry),
    sortedKeys l = true → sortedKeys (btreeErase k l) = true := by
  intro l
  induction l with
  | nil => intro _; rfl
  | cons p t ih =>
    intro hs
    obtain ⟨hall, hst⟩ := sortedKeys_cons hs
    simp only [btreeErase]
    by_cases hk : k = p.1
    · simp only [if_pos hk]
      exact hst
    · rw [if_neg hk]
      apply sortedKeys_cons_of _ _ (ih hst)
      intro b tb hb
      have : ltAllKeys p.1 (btreeErase k t) = true := ltAllKeys_erase hall
      rw [hb] at this
      simp only [ltAllKeys, List.all_cons, Bool.and_eq_true] at this
      exact this.1

theorem btreeErase_absent {k : List Nat} : ∀ {l : List Entry},
    assocGet k l = none → btreeErase k l = l := by
  intro l
  induction l with
  | nil => intro _; rfl
  | cons p t ih =>
    intro h
    simp only [assocGet] at h
    by_cases hk : k = p.1
    · rw [if_pos hk] at h
      exact absurd h (by simp)
    · rw [if_neg hk] at h
      simp only [btreeErase, if_neg hk, ih h]

theorem keyLt_of_assocGet_some {x k v : List Nat} : ∀ {l : List Entry},
    ltAllKeys x l = true → assocGet k l = some v → keyLt x k = true := by
  intro l
  induction l with
  | nil => intro _ h; simp [assocGet] at h
  | cons q t ih =>
    intro hall hget
    simp only [ltAllKeys, List.all_cons, Bool.and_eq_true] at hall
    simp only [assocGet] at hget
    by_cases hq : k = q.1
    · subst hq
      exact hall.1
    · rw [if_neg hq] at hget
      exact ih hall.2 hget

theorem btreeInsert_erase {k v : List Nat} : ∀ {l : List Entry},
    sortedKeys l = true → assocGet k l = some v →
    btreeInsert k v (btreeErase k l) = l := by
  intro l
  induction l with
  | nil => intro _ h; simp [assocGet] at h
  | cons p t ih =>
    intro hs hget
    obtain ⟨hall, hst⟩ := sortedKeys_cons hs
    simp only [assocGet] at hget
    by_cases hk : k = p.1
    · rw [if_pos hk] at hget
      have hv : v = p.2 := (Option.some.inj hget).symm
      subst hk
      subst hv
      simp only [btreeErase, if_pos rfl]
      cases t with
      | nil => simp [btreeInsert]
      | cons q tq =>
        simp only [ltAllKeys, List.all_cons, Bool.and_eq_true] at hall
        simp [btreeInsert, hall.1]
    · rw [if_neg hk] at hget
      simp only [btreeErase, if_neg hk]
      have hpk : keyLt p.1 k = true := keyLt_of_assocGet_some hall hget
      simp only [btreeInsert, if_neg (by simp [keyLt_asymm hpk] : ¬ keyLt k p.1 = true),
        if_pos hpk, ih hst hget]

/-! ## Little-endian byte strings and the SCALE compact integer codec

`parity_scale_codec::Compact` is the variable-length integer contract named in
spec §6.  Both the trie node encoder and the header codec length-prefix with
it.  Decoding is canonical: a non-minimal mode is rejected, exactly as
`parity-scale-codec` rejects out-of-range compact values. -/

/-- LE value of a byte string. -/
def leVal : List Nat → Nat
  | [] => 0
  | b :: t => b + 256 * leVal t

/-- `w`-byte LE representation of `n % 2^(8*w)`. -/
def leBytes : Nat → Nat → List Nat
  | 0, _ => []
  | w + 1, n => n % 256 :: leBytes w (n / 256)

theorem leBytes_length : ∀ w n, (leBytes w n).length = w := by
  intro w
  induction w with
  | zero => intro n; rfl
  | succ w ih => intro n; simp [leBytes, ih]

theorem leVal_lt : ∀ l : List Nat, (∀ x ∈ l, x < 256) → leVal l < 2 ^ (8 * l.length) := by
  intro l
  induction l with
  | nil => intro _; simp [leVal]
  | cons b t ih =>
    intro h
    have hb : b < 256 := h b (by simp)
    have ht := ih fun x hx => h x (by simp [hx])
    simp only [leVal, List.length_cons]
    have : 2 ^ (8 * (t.length + 1)) = 256 * 2 ^ (8 * t.length) := by
      rw [Nat.mul_add, Nat.pow_add]
      ring
    rw [this]
    omega

theorem leBytes_leVal : ∀ l : List Nat, (∀ x ∈ l, x < 256) →
    leBytes l.length (leVal l) = l := by
  intro l
  induction l with
  | nil => intro _; rfl
  | cons b t ih =>
    intro h
    have hb : b < 256 := h b (by simp)
    simp only [List.length_cons, leBytes, leVal]
    rw [show (b + 256 * leVal t) % 256 = b by omega,
      show (b + 256 * leVal t) / 256 = leVal t by omega,
      ih fun x hx => h x (by simp [hx])]

theorem leVal_leBytes : ∀ w n, n < 2 ^ (8 * w) → leVal (leBytes w n) = n := by
  intro w
  induction w with
  | zero => intro n h; simp at h; simp [leBytes, leVal, h]
  | succ w ih =>
    intro n h
    simp only [leBytes, leVal]
    rw [ih (n / 256) (by
      have : 2 ^ (8 * (w + 1)) = 256 * 2 ^ (8 * w) := by
        rw [Nat.mul_add, Nat.pow_add]; ring
      omega)]
    omega

theorem leBytes_bytes : ∀ w n, ∀ x ∈ leBytes w n, x < 256 := by
  intro w
  induction w with
  | zero => intro n x hx; simp [leBytes] at hx
  | succ w ih =>
    intro n x hx
    simp only [leBytes, List.mem_cons] at hx
    rcases hx with h | h
    · omega
    · exact ih _ x h

/-- SCALE compact encoding of `n` (defined for `n < 2^64`), as produced by
`parity_scale_codec::Compact`. -/
def compactEncode (n : Nat) : List Nat :=
  if n < 2 ^ 6 then [4 * n]
  else if n < 2 ^ 14 then [(4 * n + 1) % 256, (4 * n + 1) / 256]
  else if n < 2 ^ 30 then
    [(4 * n + 2) % 256, (4 * n + 2) / 256 % 256, (4 * n + 2) / 2 ^ 16 % 256, (4 * n + 2) / 2 ^ 24 % 256]
  else if n < 2 ^ 32 then 3 :: leBytes 4 n
  else if n < 2 ^ 40 then 7 :: leBytes 5 n
  else if n < 2 ^ 48 then 11 :: leBytes 6 n
  else if n < 2 ^ 56 then 15 :: leBytes 7 n
  else 19 :: leBytes 8 n

/-- Minimality check of the big-integer compact mode, as enforced by
`parity-scale-codec` when decoding `Compact<u64>`. -/
def compactBigMinOk (L x : Nat) : Bool :=
  if L = 4 then 2 ^ 30 ≤ x else 2 ^ (8 * (L - 1)) ≤ x

/-- SCALE compact decoding (`Compact<u64>`), returning the value and the
remaining bytes; `none` on any of the codec's error paths, including
non-canonical encodings. -/
def compactDecode : List Nat → Option (Nat × List Nat)
  | [] => none
  | p :: r =>
    if p % 4 = 0 then some (p / 4, r)
    else if p % 4 = 1 then
      match r with
      | [] => none
      | b1 :: r' =>
        let x := (p + 256 * b1) / 4
        if 2 ^ 6 ≤ x then some (x, r') else none
    else if p % 4 = 2 then
      match r with
      | b1 :: b2 :: b3 :: r' =>
        let x := (p + 256 * b1 + 2 ^ 16 * b2 + 2 ^ 24 * b3) / 4
        if 2 ^ 14 ≤ x then some (x, r') else none
      | _ => none
    else
      let L := p / 4 + 4
      if L ≤ 8 then
        if L ≤ r.length then
          let x := leVal (r.take L)
          if compactBigMinOk L x then some (x, r.drop L) else none
        else none
      else none

theorem compactDecode_encode : ∀ (l : List Nat) (n : Nat) (r : List Nat),
    (∀ x ∈ l, x < 256) → compactDecode l = some (n, r) →
    compactEncode n ++ r = l := by
  intro l n r hbytes hdec
  match l with
  | [] => simp [compactDecode] at hdec
  | p :: rest =>
    have hp : p < 256 := hbytes p (by simp)
    simp only [compactDecode] at hdec
    by_cases h0 : p % 4 = 0
    · rw [if_pos h0] at hdec
      obtain ⟨hn, hr⟩ := Prod.mk.injEq .. ▸ Option.some.inj hdec
      subst hn; subst hr
      have : p / 4 < 2 ^ 6 := by omega
      simp only [compactEncode, if_pos this]
      have : 4 * (p / 4) = p := by omega
      simp [this]
    · rw [if_neg h0] at hdec
      by_cases h1 : p % 4 = 1
      · rw [if_pos h1] at hdec
        match rest with
        | [] => simp at hdec
        | b1 :: r' =>
          have hb1 : b1 < 256 := hbytes b1 (by simp)
          simp only at hdec
          by_cases hge : 2 ^ 6 ≤ (p + 256 * b1) / 4
          · rw [if_pos hge] at hdec
            obtain ⟨hn, hr⟩ := Prod.mk.injEq .. ▸ Option.some.inj hdec
            subst hn; subst hr
            have heq : 4 * ((p + 256 * b1) / 4) + 1 = p + 256 * b1 := by omega
            have hlt : ¬ (p + 256 * b1) / 4 < 2 ^ 6 := by omega
            have hlt14 : (p + 256 * b1) / 4 < 2 ^ 14 := by omega
            simp only [compactEncode, if_neg hlt, if_pos hlt14, heq]
            have e1 : (p + 256 * b1) % 256 = p := by omega
            have e2 : (p + 256 * b1) / 256 = b1 := by omega
            simp [e1, e2]
          · rw [if_neg hge] at hdec
            simp at hdec
      · rw [if_neg h1] at hdec
        by_cases h2 : p % 4 = 2
        · rw [if_pos h2] at hdec
          match rest with
          | [] => simp at hdec
          | [b1] => simp at hdec
          | [b1, b2] => simp at hdec
          | b1 :: b2 :: b3 :: r' =>
            have hb1 : b1 < 256 := hbytes b1 (by simp)
            have hb2 : b2 < 256 := hbytes b2 (by simp)
            have hb3 : b3 < 256 := hbytes b3 (by simp)
            simp only at hdec
            by_cases hge : 2 ^ 14 ≤ (p + 256 * b1 + 2 ^ 16 * b2 + 2 ^ 24 * b3) / 4
            · rw [if_pos hge] at hdec
              obtain ⟨hn, hr⟩ := Prod.mk.injEq .. ▸ Option.some.inj hdec
              subst hn; subst hr
              set N := p + 256 * b1 + 2 ^ 16 * b2 + 2 ^ 24 * b3 with hN
              have heq : 4 * (N / 4) + 2 = N := by omega
              have hlt6 : ¬ N / 4 < 2 ^ 6 := by omega
              have hlt14 : ¬ N / 4 < 2 ^ 14 := by omega
              have hlt30 : N / 4 < 2 ^ 30 := by omega
              simp only [compactEncode, if_neg hlt6, if_neg hlt14, if_pos hlt30, heq]
              simp only [List.cons_append, List.nil_append, List.cons.injEq]
              exact ⟨by omega, by omega, by omega, by omega, trivial⟩
            · rw [if_neg hge] at hdec
              simp at hdec
        · have h3 : p % 4 = 3 := by omega
          rw [if_neg h2] at hdec
          by_cases hL8 : p / 4 + 4 ≤ 8
          · rw [if_pos hL8] at hdec
            by_cases hLlen : p / 4 + 4 ≤ rest.length
            · rw [if_pos hLlen] at hdec
              set L := p / 4 + 4 with hLdef
              by_cases hmin : compactBigMinOk L (leVal (rest.take L)) = true
              · rw [if_pos hmin] at hdec
                obtain ⟨hn, hr⟩ := Prod.mk.injEq .. ▸ Option.some.inj hdec
                subst hn; subst hr
                have htakelen : (rest.take L).length = L := by
                  rw [List.length_take]; omega
                have htakebytes : ∀ x ∈ rest.take L, x < 256 := fun x hx =>
                  hbytes x (by simp [List.mem_cons]; right; exact List.take_subset L rest hx)
                have hub : leVal (rest.take L) < 2 ^ (8 * L) := by
                  have := leVal_lt (rest.take L) htakebytes
                  rw [htakelen] at this
                  exact this
                have hback : leBytes L (leVal (rest.take L)) = rest.take L := by
                  have hb := leBytes_leVal (rest.take L) htakebytes
                  rw [htakelen] at hb
                  exact hb
                set x := leVal (rest.take L) with hx
                -- identify which big-mode branch the encoder takes
                have hcases : p = 3 ∨ p = 7 ∨ p = 11 ∨ p = 15 ∨ p = 19 := by omega
                simp only [compactBigMinOk] at hmin
                rcases hcases with hpv | hpv | hpv | hpv | hpv
                all_goals (
                  subst hpv
                  simp only [hLdef] at hx hub hback htakelen hmin ⊢
                  norm_num at hx hub hback htakelen hmin ⊢
                )
                · -- L = 4 : 2^30 ≤ x < 2^32
                  have h30 : 2 ^ 30 ≤ x := by
                    simpa using hmin
                  simp only [compactEncode,
                    if_neg (by omega : ¬ x < 2 ^ 6), if_neg (by omega : ¬ x < 2 ^ 14),
                    if_neg (by omega : ¬ x < 2 ^ 30), if_pos (by omega : x < 2 ^ 32)]
                  rw [hback]
                  simp [List.take_append_drop]
                · have h32 : 2 ^ 32 ≤ x := by simpa using hmin
                  simp only [compactEncode,
                    if_neg (by omega : ¬ x < 2 ^ 6), if_neg (by omega : ¬ x < 2 ^ 14),
                    if_neg (by omega : ¬ x < 2 ^ 30), if_neg (by omega : ¬ x < 2 ^ 32),
                    if_pos (by omega : x < 2 ^ 40)]
                  rw [hback]
                  simp [List.take_append_drop]
                · have h40 : 2 ^ 40 ≤ x := by simpa using hmin
                  simp only [compactEncode,
                    if_neg (by omega : ¬ x < 2 ^ 6), if_neg (by omega : ¬ x < 2 ^ 14),
                    if_neg (by omega : ¬ x < 2 ^ 30), if_neg (by omega : ¬ x < 2 ^ 32),
                    if_neg (by omega : ¬ x < 2 ^ 40), if_pos (by omega : x < 2 ^ 48)]
                  rw [hback]
                  simp [List.take_append_drop]
                · have h48 : 2 ^ 48 ≤ x := by simpa using hmin
                  simp only [compactEncode,
                    if_neg (by omega : ¬ x < 2 ^ 6), if_neg (by omega : ¬ x < 2 ^ 14),
                    if_neg (by omega : ¬ x < 2 ^ 30), if_neg (by omega : ¬ x < 2 ^ 32),
                    if_neg (by omega : ¬ x < 2 ^ 40), if_neg (by omega : ¬ x < 2 ^ 48),
                    if_pos (by omega : x < 2 ^ 56)]
                  rw [hback]
                  simp [List.take_append_drop]
                · have h56 : 2 ^ 56 ≤ x := by simpa using hmin
                  simp only [compactEncode,
                    if_neg (by omega : ¬ x < 2 ^ 6), if_neg (by omega : ¬ x < 2 ^ 14),
                    if_neg (by omega : ¬ x < 2 ^ 30), if_neg (by omega : ¬ x < 2 ^ 32),
                    if_neg (by omega : ¬ x < 2 ^ 40), if_neg (by omega : ¬ x < 2 ^ 48),
                    if_neg (by omega : ¬ x < 2 ^ 56)]
                  rw [hback]
                  simp [List.take_append_drop]
              · rw [if_neg hmin] at hdec
                simp at hdec
            · rw [if_neg hLlen] at hdec
              simp at hdec
          · rw [if_neg hL8] at hdec
            simp at hdec

theorem compactDecode_of_encode (n : Nat) (r : List Nat) (h64 : n < 2 ^ 64) :
    compactDecode (compactEncode n ++ r) = some (n, r) := by
  by_cases h6 : n < 2 ^ 6
  · simp only [compactEncode, if_pos h6, List.cons_append, List.nil_append, compactDecode]
    rw [if_pos (by omega : 4 * n % 4 = 0), show 4 * n / 4 = n by omega]
  · by_cases h14 : n < 2 ^ 14
    · simp only [compactEncode, if_neg h6, if_pos h14, List.cons_append, List.nil_append,
        compactDecode]
      rw [if_neg (by omega : ¬ (4 * n + 1) % 256 % 4 = 0),
        if_pos (by omega : (4 * n + 1) % 256 % 4 = 1)]
      rw [if_pos (by omega : 2 ^ 6 ≤ ((4 * n + 1) % 256 + 256 * ((4 * n + 1) / 256)) / 4),
        show ((4 * n + 1) % 256 + 256 * ((4 * n + 1) / 256)) / 4 = n by omega]
    · by_cases h30 : n < 2 ^ 30
      · simp only [compactEncode, if_neg h6, if_neg h14, if_pos h30, List.cons_append,
          List.nil_append, compactDecode]
        rw [if_neg (by omega : ¬ (4 * n + 2) % 256 % 4 = 0),
          if_neg (by omega : ¬ (4 * n + 2) % 256 % 4 = 1),
          if_pos (by omega : (4 * n + 2) % 256 % 4 = 2)]
        rw [if_pos (by omega :
          2 ^ 14 ≤ ((4 * n + 2) % 256 + 256 * ((4 * n + 2) / 256 % 256)
            + 2 ^ 16 * ((4 * n + 2) / 2 ^ 16 % 256) + 2 ^ 24 * ((4 * n + 2) / 2 ^ 24 % 256)) / 4),
          show ((4 * n + 2) % 256 + 256 * ((4 * n + 2) / 256 % 256)
            + 2 ^ 16 * ((4 * n + 2) / 2 ^ 16 % 256) + 2 ^ 24 * ((4 * n + 2) / 2 ^ 24 % 256)) / 4
            = n by omega]
      · -- big-integer modes
        have hbig : ∀ (p L : Nat), p % 4 = 3 → p / 4 + 4 = L → L ≤ 8 →
            n < 2 ^ (8 * L) → compactBigMinOk L n = true →
            compactDecode ((p :: leBytes L n) ++ r) = some (n, r) := by
          intro p L hp3 hL hL8 hnL hmin
          simp only [List.cons_append, compactDecode]
          rw [if_neg (by omega : ¬ p % 4 = 0), if_neg (by omega : ¬ p % 4 = 1),
            if_neg (by omega : ¬ p % 4 = 2)]
          simp only [hL]
          rw [if_pos hL8]
          have hlen : L ≤ (leBytes L n ++ r).length := by
            rw [List.length_append, leBytes_length]
            omega
          rw [if_pos hlen]
          have htake : (leBytes L n ++ r).take L = leBytes L n := by
            have := List.take_left (leBytes L n) r
            rwa [leBytes_length] at this
          have hdrop : (leBytes L n ++ r).drop L = r := by
            have := List.drop_left (leBytes L n) r
            rwa [leBytes_length] at this
          rw [htake, hdrop, leVal_leBytes L n hnL, if_pos hmin]
        by_cases h32 : n < 2 ^ 32
        · simp only [compactEncode, if_neg h6, if_neg h14, if_neg h30, if_pos h32]
          exact hbig 3 4 (by omega) (by omega) (by omega) (by omega)
            (by simp [compactBigMinOk]; omega)
        · by_cases h40 : n < 2 ^ 40
          · simp only [compactEncode, if_neg h6, if_neg h14, if_neg h30, if_neg h32, if_pos h40]
            exact hbig 7 5 (by omega) (by omega) (by omega) (by omega)
              (by simp [compactBigMinOk]; omega)
          · by_cases h48 : n < 2 ^ 48
            · simp only [compactEncode, if_neg h6, if_neg h14, if_neg h30, if_neg h32,
                if_neg h40, if_pos h48]
              exact hbig 11 6 (by omega) (by omega) (by omega) (by omega)
                (by simp [compactBigMinOk]; omega)
            · by_cases h56 : n < 2 ^ 56
              · simp only [compactEncode, if_neg h6, if_neg h14, if_neg h30, if_neg h32,
                  if_neg h40, if_neg h48, if_pos h56]
                exact hbig 15 7 (by omega) (by omega) (by omega) (by omega)
                  (by simp [compactBigMinOk]; omega)
              · simp only [compactEncode, if_neg h6, if_neg h14, if_neg h30, if_neg h32,
                  if_neg h40, if_neg h48, if_neg h56]
                exact hbig 19 8 (by omega) (by omega) (by omega) (by omega)
                  (by simp [compactBigMinOk]; omega)

/-! ## The Blake2b-256 hash primitive

`header.rs` hashes with `blake2::VarBlake2b::new_keyed(&[], 32)`, i.e.
unkeyed Blake2b with a 32-byte output, and the trie's Merkle values use the
same 256-bit primitive (spec §6).  Modelled here in full: 64-bit words are
`Nat`s reduced mod `2^64` where overflow matters. -/

def add64 (a b : Nat) : Nat := (a + b) % 2 ^ 64

def xor64 (a b : Nat) : Nat := Nat.xor a b

def rotr64 (c x : Nat) : Nat := x / 2 ^ c + x % 2 ^ c * 2 ^ (64 - c)

/-- Blake2b initialization vector. -/
def blakeIV : List Nat :=
  [0x6a09e667f3bcc908, 0xbb67ae8584caa73b, 0x3c6ef372fe94f82b, 0xa54ff53a5f1d36f1,
   0x510e527fade682d1, 0x9b05688c2b3e6c1f, 0x1f83d9abfb41bd6b, 0x5be0cd19137e2179]

/-- Blake2 message schedule. -/
def blakeSigma : List (List Nat) :=
  [[0, 1, 2, 3, 4, 5, 6, 7, 8, 9, 10, 11, 12, 13, 14, 15],
   [14, 10, 4, 8, 9, 15, 13, 6, 1, 12, 0, 2, 11, 7, 5, 3],
   [11, 8, 12, 0, 5, 2, 15, 13, 10, 14, 3, 6, 7, 1, 9, 4],
   [7, 9, 3, 1, 13, 12, 11, 14, 2, 6, 5, 10, 4, 0, 15, 8],
   [9, 0, 5, 7, 2, 4, 10, 15, 14, 1, 11, 12, 6, 8, 3, 13],
   [2, 12, 6, 10, 0, 11, 8, 3, 4, 13, 7, 5, 15, 14, 1, 9],
   [12, 5, 1, 15, 14, 13, 4, 10, 0, 7, 6, 3, 9, 2, 8, 11],
   [13, 11, 7, 14, 12, 1, 3, 9, 5, 0, 15, 4, 8, 6, 2, 10],
   [6, 15, 14, 9, 11, 3, 0, 8, 12, 2, 13, 7, 1, 4, 10, 5],
   [10, 2, 8, 4, 7, 6, 1, 5, 15, 11, 9, 14, 3, 12, 13, 0]]

/-- The Blake2b G mixing function on the 16-word working vector. -/
def gmix (v : List Nat) (a b c d x y : Nat) : List Nat :=
  let va := add64 (add64 (v.getD a 0) (v.getD b 0)) x
  let vd := rotr64 32 (xor64 (v.getD d 0) va)
  let vc := add64 (v.getD c 0) vd
  let vb := rotr64 24 (xor64 (v.getD b 0) vc)
  let va2 := add64 (add64 va vb) y
  let vd2 := rotr64 16 (xor64 vd va2)
  let vc2 := add64 vc vd2
  let vb2 := rotr64 63 (xor64 vb vc2)
  ((((v.set a va2).set b vb2).set c vc2).set d vd2)

/-- One Blake2b round over message words `m` with schedule row `s`. -/
def blakeRound (m : List Nat) (v : List Nat) (s : List Nat) : List Nat :=
  let mi := fun i => m.getD (s.getD i 0) 0
  let v1 := gmix v 0 4 8 12 (mi 0) (mi 1)
  let v2 := gmix v1 1 5 9 13 (mi 2) (mi 3)
  let v3 := gmix v2 2 6 10 14 (mi 4) (mi 5)
  let v4 := gmix v3 3 7 11 15 (mi 6) (mi 7)
  let v5 := gmix v4 0 5 10 15 (mi 8) (mi 9)
  let v6 := gmix v5 1 6 11 12 (mi 10) (mi 11)
  let v7 := gmix v6 2 7 8 13 (mi 12) (mi 13)
  gmix v7 3 4 9 14 (mi 14) (mi 15)

/-- The Blake2b compression function: `h` the 8-word state, `block` a 128-byte
block, `t` the byte counter, `last` the final-block flag. -/
def blakeCompress (h : List Nat) (block : List Nat) (t : Nat) (last : Bool) : List Nat :=
  let m := (List.range 16).map fun i => leVal ((block.drop (8 * i)).take 8)
  let v := h ++ blakeIV
  let v := v.set 12 (xor64 (v.getD 12 0) (t % 2 ^ 64))
  let v := if last then v.set 14 (xor64 (v.getD 14 0) (2 ^ 64 - 1)) else v
  let v := (List.range 12).foldl (fun w r => blakeRound m w (blakeSigma.getD (r % 10) [])) v
  (List.range 8).map fun i => xor64 (h.getD i 0) (xor64 (v.getD i 0) (v.getD (i + 8) 0))

/-- Absorb the message block by block; `t` counts bytes already compressed. -/
def blakeBlocks (h : List Nat) (t : Nat) (m : List Nat) : List Nat :=
  if 128 < m.length then
    blakeBlocks (blakeCompress h (m.take 128) (t + 128) false) (t + 128) (m.drop 128)
  else
    blakeCompress h (m ++ List.replicate (128 - m.length) 0) (t + m.length) true
termination_by m.length
decreasing_by simp [List.length_drop]; omega

/-- Blake2b with a 32-byte digest of the whole message, the primitive behind
`hash_from_scale_encoded_header` and the trie root. -/
def blake2b256 (m : List Nat) : List Nat :=
  let h0 := [xor64 0x6a09e667f3bcc908 0x01010020, 0xbb67ae8584caa73b, 0x3c6ef372fe94f82b,
    0xa54ff53a5f1d36f1, 0x510e527fade682d1, 0x9b05688c2b3e6c1f, 0x1f83d9abfb41bd6b,
    0x5be0cd19137e2179]
  let hf := blakeBlocks h0 0 m
  leBytes 8 (hf.getD 0 0) ++ leBytes 8 (hf.getD 1 0) ++ leBytes 8 (hf.getD 2 0)
    ++ leBytes 8 (hf.getD 3 0)

theorem blake2b256_length (m : List Nat) : (blake2b256 m).length = 32 := by
  simp [blake2b256, leBytes_length]

/-! ## Nibbles and the trie node encoder

`trie.rs` declares `pub mod calculate_root;` and its tests exercise
`Trie::node_value`, `TrieNodeKey` and `common_prefix`, but the bodies of the
`calculate_root` module and of those private helpers are not under `src/`.
They are modelled below from spec §3, §4.1–4.3. -/

/-- Nibble sequence of a byte key, high nibble first (spec §3). -/
def nibblesOfKey (k : List Nat) : List Nat := k.flatMap fun b => [b / 16, b % 16]

/-- Longest common prefix of two nibble keys. -/
def lcp2 : List Nat → List Nat → List Nat
  | a :: as, b :: bs => if a = b then a :: lcp2 as bs else []
  | _, _ => []

/-- Longest common prefix of a list of nibble keys (empty on no input). -/
def lcpKeys : List (List Nat) → List Nat
  | [] => []
  | k :: t => t.foldl lcp2 k

/-- Modelled from the spec: `common_prefix` of `trie.rs` (its body is not
under `src/`; only its tests are).  Longest sequence that is a prefix of
every input (spec §4.1); per the repository's `common_prefix_works_empty`
test it returns `None` — not the empty key — when there is no input. -/
def common_prefix (keys : List (List Nat)) : Option (List Nat) :=
  match keys with
  | [] => none
  | k :: t => some (t.foldl lcp2 k)

/-- Pack nibbles two per byte, most significant first (spec §4.2 step 2
assumes an even count; the odd leading nibble is emitted alone first). -/
def packPairs : List Nat → List Nat
  | a :: b :: t => (a * 16 + b) :: packPairs t
  | [a] => [a * 16]
  | [] => []

/-- Partial-key byte emission (spec §4.2 step 2). -/
def pkBytes (pk : List Nat) : List Nat :=
  if pk.length % 2 = 1 then pk.headD 0 :: packPairs pk.tail else packPairs pk

/-- Header continuation bytes for nibble counts ≥ 63 (spec §4.2 step 1). -/
def headerContinuation (n : Nat) : List Nat :=
  if n < 255 then [n] else 255 :: headerContinuation (n - 255)
termination_by n
decreasing_by omega

/-- Node header byte(s): `kind` is 1 = leaf, 2 = branch without value,
3 = branch with value, in the top two bits (spec §4.2 step 1). -/
def nodeHeader (kind pkLen : Nat) : List Nat :=
  if pkLen < 63 then [kind * 64 + pkLen]
  else (kind * 64 + 63) :: headerContinuation (pkLen - 62)

/-- One byte of the children bitmap: bit `i` set iff slot `base + i` has a
child (spec §4.2 step 3, little-endian over the 16 slots). -/
def bitmapByte (f : Nat → Bool) (base : Nat) : Nat :=
  (List.range 8).foldl (fun a i => a + if f (base + i) then 2 ^ i else 0) 0

/-- The 2-byte children bitmap. -/
def childBitmap (f : Nat → Bool) : List Nat := [bitmapByte f 0, bitmapByte f 8]

/-- A child reference: the raw encoding if shorter than 32 bytes, else its
digest; length-prefixed (spec §4.2 step 5, §4.3 step 6). -/
def childRefEnc (enc : List Nat) : List Nat :=
  let r := if enc.length < 32 then enc else blake2b256 enc
  compactEncode r.length ++ r

/-- Measure used as recursion fuel: every child call strictly decreases it. -/
def trieMsr (l : List Entry) : Nat := (l.map fun p => p.1.length + 1).sum

/-- Modelled from the spec: the recursive node-value computation of the
missing `calculate_root` module (spec §4.2–4.3) over nibble-keyed entries.
The node sits at the longest common prefix of the entry keys; entries whose
stripped key is empty give the own value; the rest are bucketed by leading
nibble into the 16 child slots, emitted in ascending slot order.  `fuel`
only bounds the recursion depth; `trieNodeValue` supplies enough for the
recursion to complete. -/
def nodeValueF : Nat → List Entry → List Nat
  | 0, _ => []
  | _ + 1, [] => [0]
  | fuel + 1, e :: es =>
    let pk := lcpKeys ((e :: es).map Prod.fst)
    let stripped := (e :: es).map fun p => (p.1.drop pk.length, p.2)
    let ownVal := assocGet [] stripped
    let bucket := fun i : Nat =>
      (stripped.filter fun p => p.1.head? = some i).map fun p => (p.1.tail, p.2)
    if (List.range 16).any (fun i => !(bucket i).isEmpty) then
      nodeHeader (if ownVal.isSome then 3 else 2) pk.length
        ++ pkBytes pk
        ++ childBitmap (fun i => !(bucket i).isEmpty)
        ++ (match ownVal with | some v => compactEncode v.length ++ v | none => [])
        ++ (List.range 16).flatMap fun i =>
             if (bucket i).isEmpty then [] else childRefEnc (nodeValueF fuel (bucket i))
    else
      nodeHeader 1 pk.length ++ pkBytes pk
        ++ compactEncode (ownVal.getD []).length ++ ownVal.getD []

/-- Canonical pre-hash encoding of the root node of the trie whose byte-keyed
entry map is `entries` (the value `Trie::node_value` computes for the root
invocation in the repository's tests). -/
def trieNodeValue (entries : List Entry) : List Nat :=
  let nib := entries.map fun p => (nibblesOfKey p.1, p.2)
  nodeValueF (trieMsr nib + 1) nib

/-! ## The trie facade (`Trie` of `trie.rs`) -/

/-- The trie facade: owns the ordered entry map (`BTreeMap` in the source). -/
structure Trie where
  entries : List Entry
  deriving DecidableEq

/-- `Trie::new`. -/
def Trie.new : Trie := ⟨[]⟩

/-- `Trie::insert` (an upsert on the map). -/
def Trie.insert (t : Trie) (key value : List Nat) : Trie :=
  ⟨btreeInsert key value t.entries⟩

/-- `Trie::remove`: returns the previous value, if any, and the new trie. -/
def Trie.remove (t : Trie) (key : List Nat) : Option (List Nat) × Trie :=
  (assocGet key t.entries, ⟨btreeErase key t.entries⟩)

/-- `Trie::is_empty`. -/
def Trie.is_empty (t : Trie) : Bool := t.entries.isEmpty

/-- `Trie::clear`. -/
def Trie.clear (_ : Trie) : Trie := ⟨[]⟩

/-- `Trie::root_merkle_value`: the root node's canonical encoding is hashed
unconditionally (spec §4.3 step 8). -/
def Trie.root_merkle_value (t : Trie) : List Nat :=
  blake2b256 (trieNodeValue t.entries)

/-- The representation invariant `BTreeMap` maintains for `Trie::entries`. -/
def Trie.WF (t : Trie) : Prop := sortedKeys t.entries = true

/-- A client call against the facade: `Trie::insert` or `Trie::remove`. -/
inductive TrieOp
  | ins (key value : List Nat)
  | del (key : List Nat)

def applyOp (t : Trie) : TrieOp → Trie
  | .ins k v => t.insert k v
  | .del k => (t.remove k).2

/-- The trie built by running a call sequence against `Trie::new`. -/
def applyOps (ops : List TrieOp) : Trie := ops.foldl applyOp Trie.new

theorem applyOps_sorted (ops : List TrieOp) : sortedKeys (applyOps ops).entries = true := by
  suffices h : ∀ t : Trie, sortedKeys t.entries = true →
      sortedKeys (ops.foldl applyOp t).entries = true from h Trie.new rfl
  induction ops with
  | nil => intro t ht; exact ht
  | cons op rest ih =>
    intro t ht
    simp only [List.foldl_cons]
    apply ih
    cases op with
    | ins k v => exact sortedKeys_insert k v _ ht
    | del k => exact sortedKeys_erase k _ ht

/-! ## The SCALE block-header codec (`header.rs`)

`header.rs` parses a SCALE-encoded header: 32-byte parent hash, compact block
number, two 32-byte roots, then the digest log.  The `babe` and `grandpa`
submodules it declares are not under `src/`; their content codecs are
modelled below as closed tagged-variant sets (spec §9) that retain their
payload bytes zero-copy. -/

/-- `header::Error`. -/
inductive Error
  | TooShort
  | TooLong
  | BlockNumberDecodeError
  | DigestLenDecodeError
  | DigestItemLenDecodeError
  | DigestItemDecodeError
  | UnknownDigestLogType (ty : Nat)
  | SealIsntLastItem
  | BadBabeSealLength
  | BadBabePreDigestRefType
  | BadBabeConsensusRefType
  | MultipleBabePreRuntimeDigests
  | MultipleBabeEpochDescriptors
  | MultipleBabeConfigDescriptors
  | UnexpectedBabeConfigDescriptor
  | BadGrandpaConsensusRefType
  | UnknownConsensusEngine (engine : List Nat)
  deriving DecidableEq, Repr

/-- The three `BabeConsensusLogRef` variants used by `header.rs`. -/
inductive BabeConsensusLog
  | nextEpochData (payload : List Nat)
  | nextConfigData (payload : List Nat)
  | onDisabled (payload : List Nat)
  deriving DecidableEq, Repr

/-- `header::DigestItemRef`, with the parsed references of the missing
submodules carried as their variant tag and payload bytes. -/
inductive DigestItem
  | changesTrieRoot (hash : List Nat)
  | babePreDigest (tag : Nat) (payload : List Nat)
  | babeConsensus (log : BabeConsensusLog)
  | grandpaConsensus (tag : Nat) (payload : List Nat)
  | babeSeal (sl : List Nat)
  | changesTrieSignal
  deriving DecidableEq, Repr

/-- Modelled from the spec: `BabeConsensusLogRef::from_slice` (`babe.rs` is
not under `src/`).  A closed tagged-variant set — a tag byte selecting
`NextEpochData` / `NextConfigData` / `OnDisabled`, the payload kept
verbatim; other tags fail as the source's `BadBabeConsensusRefType`. -/
def babeConsensusLogFromSlice (c : List Nat) : Except Error BabeConsensusLog :=
  match c with
  | 1 :: p => .ok (.nextEpochData p)
  | 2 :: p => .ok (.nextConfigData p)
  | 3 :: p => .ok (.onDisabled p)
  | _ => .error .BadBabeConsensusRefType

/-- Encoding of a `BabeConsensusLog`, inverse of the modelled decoder. -/
def babeConsensusLogEncode : BabeConsensusLog → List Nat
  | .nextEpochData p => 1 :: p
  | .nextConfigData p => 2 :: p
  | .onDisabled p => 3 :: p

/-- Modelled from the spec: `BabePreDigestRef::from_slice` (`babe.rs` is not
under `src/`): a tag byte (two variants) plus verbatim payload. -/
def babePreDigestFromSlice (c : List Nat) : Except Error (Nat × List Nat) :=
  match c with
  | 1 :: p => .ok (1, p)
  | 2 :: p => .ok (2, p)
  | _ => .error .BadBabePreDigestRefType

/-- Modelled from the spec: `GrandpaConsensusLogRef::from_slice`
(`grandpa.rs` is not under `src/`): a tag byte (three variants) plus
verbatim payload. -/
def grandpaConsensusLogFromSlice (c : List Nat) : Except Error (Nat × List Nat) :=
  match c with
  | 1 :: p => .ok (1, p)
  | 2 :: p => .ok (2, p)
  | 3 :: p => .ok (3, p)
  | _ => .error .BadGrandpaConsensusRefType

/-- Modelled from the spec: the `ChangesTrieSignal` codec (its type is not
under `src/`).  A closed variant set with a single empty variant, consumed
from the stream; other tags fail as `DigestItemDecodeError`. -/
def changesTrieSignalDecode (s : List Nat) : Except Error (Unit × List Nat) :=
  match s with
  | 0 :: r => .ok ((), r)
  | _ => .error .DigestItemDecodeError

/-- The byte string `b"BABE"`. -/
def babeEngine : List Nat := [66, 65, 66, 69]

/-- The byte string `b"FRNK"`. -/
def frnkEngine : List Nat := [70, 82, 78, 75]

/-- `header::decode_item_from_parts`. -/
def decode_item_from_parts (index : Nat) (engine : List Nat) (content : List Nat) :
    Except Error DigestItem :=
  if index = 4 then
    if engine = babeEngine then
      (babeConsensusLogFromSlice content).map .babeConsensus
    else if engine = frnkEngine then
      (grandpaConsensusLogFromSlice content).map fun p => .grandpaConsensus p.1 p.2
    else .error (.UnknownConsensusEngine engine)
  else if index = 5 then
    if engine = babeEngine then
      if content.length = 64 then .ok (.babeSeal content)
      else .error .BadBabeSealLength
    else .error (.UnknownConsensusEngine engine)
  else
    if engine = babeEngine then
      (babePreDigestFromSlice content).map fun p => .babePreDigest p.1 p.2
    else .error (.UnknownConsensusEngine engine)

/-- `header::decode_item`: one digest log item plus the remaining bytes. -/
def decode_item (slice : List Nat) : Except Error (DigestItem × List Nat) :=
  match slice with
  | [] => .error .TooShort
  | index :: s =>
    if index = 4 ∨ index = 5 ∨ index = 6 then
      match s with
      | e1 :: e2 :: e3 :: e4 :: s2 =>
        match compactDecode s2 with
        | none => .error .DigestItemLenDecodeError
        | some (len, s3) =>
          if s3.length < len then .error .TooShort
          else
            match decode_item_from_parts index [e1, e2, e3, e4] (s3.take len) with
            | .error e => .error e
            | .ok item => .ok (item, s3.drop len)
      | _ => .error .TooShort
    else if index = 2 then
      if s.length < 32 then .error .TooShort
      else .ok (.changesTrieRoot (s.take 32), s.drop 32)
    else if index = 7 then
      (changesTrieSignalDecode s).map fun p => (.changesTrieSignal, p.2)
    else .error (.UnknownDigestLogType index)

/-- `DigestItemRef::scale_encoding`, flattened to bytes. -/
def itemEncode : DigestItem → List Nat
  | .babePreDigest t p =>
    6 :: babeEngine ++ compactEncode (t :: p).length ++ (t :: p)
  | .babeConsensus log =>
    let enc := babeConsensusLogEncode log
    4 :: babeEngine ++ compactEncode enc.length ++ enc
  | .grandpaConsensus t p =>
    4 :: frnkEngine ++ compactEncode (t :: p).length ++ (t :: p)
  | .babeSeal sl => 5 :: babeEngine ++ compactEncode 64 ++ sl
  | .changesTrieSignal => [7, 0]
  | .changesTrieRoot h => 2 :: h

/-- Well-formedness of a digest item as producible by `decode_item`: payload
tags in range, fixed-size fields of the right length, lengths within the
`usize`/`u64` range of the source. -/
def DigestItem.WF : DigestItem → Prop
  | .changesTrieRoot h => h.length = 32
  | .babePreDigest t p => (t = 1 ∨ t = 2) ∧ p.length + 1 < 2 ^ 64
  | .babeConsensus log =>
    (babeConsensusLogEncode log).length < 2 ^ 64
  | .grandpaConsensus t p => (t = 1 ∨ t = 2 ∨ t = 3) ∧ p.length + 1 < 2 ^ 64
  | .babeSeal sl => sl.length = 64
  | .changesTrieSignal => True

instance : DecidablePred DigestItem.WF := by
  intro it
  cases it <;> simp only [DigestItem.WF] <;> infer_instance

/-- The four index fields tracked by `DigestRef::from_slice`'s forward scan. -/
structure DigestScanState where
  babe_seal_index : Option Nat
  babe_predigest_index : Option Nat
  babe_next_epoch_data_index : Option Nat
  babe_next_config_data_index : Option Nat
  deriving DecidableEq, Repr

/-- The all-`None` initial scan state. -/
def DigestScanState.init : DigestScanState := ⟨none, none, none, none⟩

/-- The `match item` arm of `DigestRef::from_slice`'s scan loop, in source
order. -/
def validateItem (len itemNum : Nat) (st : DigestScanState) :
    DigestItem → Except Error DigestScanState
  | .changesTrieRoot _ => .ok st
  | .babePreDigest _ _ =>
    if st.babe_predigest_index.isNone then
      .ok { st with babe_predigest_index := some itemNum }
    else .error .MultipleBabePreRuntimeDigests
  | .babeConsensus (.nextEpochData _) =>
    if st.babe_next_epoch_data_index.isNone then
      .ok { st with babe_next_epoch_data_index := some itemNum }
    else .error .MultipleBabeEpochDescriptors
  | .babeConsensus (.nextConfigData _) =>
    if st.babe_next_config_data_index.isNone then
      .ok { st with babe_next_config_data_index := some itemNum }
    else .error .MultipleBabeConfigDescriptors
  | .babeConsensus (.onDisabled _) => .ok st
  | .grandpaConsensus _ _ => .ok st
  | .babeSeal _ =>
    if itemNum = len - 1 then .ok { st with babe_seal_index := some itemNum }
    else .error .SealIsntLastItem
  | .changesTrieSignal => .ok st

/-- The item-level forward validation pass over already-decoded items. -/
def validateItems (len : Nat) : Nat → DigestScanState → List DigestItem →
    Except Error DigestScanState
  | _, st, [] => .ok st
  | itemNum, st, it :: rest =>
    match validateItem len itemNum st it with
    | .error e => .error e
    | .ok st2 => validateItems len (itemNum + 1) st2 rest

/-- The byte-level scan loop of `DigestRef::from_slice`: decode each item and
validate it, `count` items remaining. -/
def digestScan (len : Nat) : Nat → DigestScanState → List Nat → Nat →
    Except Error (DigestScanState × List Nat)
  | _, st, digest, 0 => .ok (st, digest)
  | itemNum, st, digest, count + 1 =>
    match decode_item digest with
    | .error e => .error e
    | .ok (item, next) =>
      match validateItem len itemNum st item with
      | .error e => .error e
      | .ok st2 => digestScan len (itemNum + 1) st2 next count

/-- `header::DigestRef`: the raw encoded digest, its item count, and the
scan's index fields. -/
structure DigestRef where
  digest_logs_len : Nat
  digest : List Nat
  babe_seal_index : Option Nat
  babe_predigest_index : Option Nat
  babe_next_epoch_data_index : Option Nat
  babe_next_config_data_index : Option Nat
  deriving DecidableEq, Repr

/-- `DigestRef::from_slice`. -/
def DigestRef.from_slice (scale_encoded : List Nat) : Except Error DigestRef :=
  match compactDecode scale_encoded with
  | none => .error .DigestLenDecodeError
  | some (digest_logs_len, rest) =>
    match digestScan digest_logs_len 0 DigestScanState.init rest digest_logs_len with
    | .error e => .error e
    | .ok (st, remaining) =>
      if ¬ remaining.isEmpty then .error .TooLong
      else if st.babe_next_config_data_index.isSome
          ∧ st.babe_next_epoch_data_index.isNone then
        .error .UnexpectedBabeConfigDescriptor
      else
        .ok ⟨digest_logs_len, rest, st.babe_seal_index, st.babe_predigest_index,
          st.babe_next_epoch_data_index, st.babe_next_config_data_index⟩

/-- Decode `count` digest items without validation (what `LogsIter` walks;
validity is guaranteed at `DigestRef` construction). -/
def decodeItems : Nat → List Nat → Option (List DigestItem × List Nat)
  | 0, d => some ([], d)
  | count + 1, d =>
    match decode_item d with
    | .error _ => none
    | .ok (it, next) =>
      match decodeItems count next with
      | some (items, rem) => some (it :: items, rem)
      | none => none

/-- `DigestRef::logs` as a list. -/
def DigestRef.logs (d : DigestRef) : List DigestItem :=
  match decodeItems d.digest_logs_len d.digest with
  | some (items, _) => items
  | none => []

/-- `DigestRef::scale_encoding`: the buffers whose concatenation is the SCALE
encoding of the digest. -/
def DigestRef.scale_encoding (d : DigestRef) : List (List Nat) :=
  compactEncode d.digest_logs_len :: d.logs.map itemEncode

/-- `DigestRef::babe_epoch_information`; the source's `unreachable!`/`panic!`
arms are modelled as `none` (they cannot be hit for a decoded digest). -/
def DigestRef.babe_epoch_information (d : DigestRef) :
    Option (List Nat × Option (List Nat)) :=
  match d.babe_next_epoch_data_index with
  | none => none
  | some i =>
    match d.logs.get? i with
    | some (.babeConsensus (.nextEpochData e)) =>
      match d.babe_next_config_data_index with
      | none => some (e, none)
      | some j =>
        match d.logs.get? j with
        | some (.babeConsensus (.nextConfigData c)) => some (e, some c)
        | _ => none
    | _ => none

/-- `header::HeaderRef`. -/
structure HeaderRef where
  parent_hash : List Nat
  number : Nat
  state_root : List Nat
  extrinsics_root : List Nat
  digest : DigestRef
  deriving DecidableEq, Repr

/-- `header::decode`. -/
def decode (scale_encoded : List Nat) : Except Error HeaderRef :=
  if scale_encoded.length < 32 + 1 then .error .TooShort
  else
    let parent_hash := scale_encoded.take 32
    let r1 := scale_encoded.drop 32
    match compactDecode r1 with
    | none => .error .BlockNumberDecodeError
    | some (number, r2) =>
      if r2.length < 32 + 32 + 1 then .error .TooShort
      else
        let state_root := r2.take 32
        let r3 := r2.drop 32
        let extrinsics_root := r3.take 32
        let r4 := r3.drop 32
        match DigestRef.from_slice r4 with
        | .error e => .error e
        | .ok digest => .ok ⟨parent_hash, number, state_root, extrinsics_root, digest⟩

/-- `HeaderRef::scale_encoding`: the buffers whose concatenation is the SCALE
encoding of the header. -/
def HeaderRef.scale_encoding (h : HeaderRef) : List (List Nat) :=
  h.parent_hash :: compactEncode h.number :: h.state_root :: h.extrinsics_root
    :: h.digest.scale_encoding

/-- `header::hash_from_scale_encoded_header_vectored`: the `VarBlake2b`
hasher absorbs each buffer in turn, so the digest is Blake2b-256 of the
byte stream the buffers form. -/
def hash_from_scale_encoded_header_vectored (header : List (List Nat)) : List Nat :=
  blake2b256 (header.foldl (fun acc buf => acc ++ buf) [])

/-- `header::hash_from_scale_encoded_header`. -/
def hash_from_scale_encoded_header (header : List Nat) : List Nat :=
  hash_from_scale_encoded_header_vectored [header]

/-- `HeaderRef::hash`. -/
def HeaderRef.hash (h : HeaderRef) : List Nat :=
  hash_from_scale_encoded_header_vectored h.scale_encoding

/-! ## Item-level round-trip lemmas -/

theorem babeConsensusLog_roundtrip {c : List Nat} {log : BabeConsensusLog}
    (h : babeConsensusLogFromSlice c = .ok log) : babeConsensusLogEncode log = c := by
  match c with
  | [] => simp [babeConsensusLogFromSlice] at h
  | t :: p =>
    match t with
    | 1 =>
      simp only [babeConsensusLogFromSlice, Except.ok.injEq] at h
      subst h; rfl
    | 2 =>
      simp only [babeConsensusLogFromSlice, Except.ok.injEq] at h
      subst h; rfl
    | 3 =>
      simp only [babeConsensusLogFromSlice, Except.ok.injEq] at h
      subst h; rfl
    | 0 => simp [babeConsensusLogFromSlice] at h
    | n + 4 => simp [babeConsensusLogFromSlice] at h

theorem babePreDigest_roundtrip {c : List Nat} {t : Nat} {p : List Nat}
    (h : babePreDigestFromSlice c = .ok (t, p)) : t :: p = c := by
  match c with
  | [] => simp [babePreDigestFromSlice] at h
  | t0 :: p0 =>
    match t0 with
    | 1 =>
      simp only [babePreDigestFromSlice, Except.ok.injEq, Prod.mk.injEq] at h
      rw [← h.1, ← h.2]
    | 2 =>
      simp only [babePreDigestFromSlice, Except.ok.injEq, Prod.mk.injEq] at h
      rw [← h.1, ← h.2]
    | 0 => simp [babePreDigestFromSlice] at h
    | n + 3 => simp [babePreDigestFromSlice] at h

theorem grandpaConsensusLog_roundtrip {c : List Nat} {t : Nat} {p : List Nat}
    (h : grandpaConsensusLogFromSlice c = .ok (t, p)) : t :: p = c := by
  match c with
  | [] => simp [grandpaConsensusLogFromSlice] at h
  | t0 :: p0 =>
    match t0 with
    | 1 =>
      simp only [grandpaConsensusLogFromSlice, Except.ok.injEq, Prod.mk.injEq] at h
      rw [← h.1, ← h.2]
    | 2 =>
      simp only [grandpaConsensusLogFromSlice, Except.ok.injEq, Prod.mk.injEq] at h
      rw [← h.1, ← h.2]
    | 3 =>
      simp only [grandpaConsensusLogFromSlice, Except.ok.injEq, Prod.mk.injEq] at h
      rw [← h.1, ← h.2]
    | 0 => simp [grandpaConsensusLogFromSlice] at h
    | n + 4 => simp [grandpaConsensusLogFromSlice] at h

theorem itemEncode_from_parts {index e1 e2 e3 e4 : Nat} {content : List Nat}
    {item : DigestItem}
    (h456 : index = 4 ∨ index = 5 ∨ index = 6)
    (hfp : decode_item_from_parts index [e1, e2, e3, e4] content = .ok item) :
    itemEncode item = index :: [e1, e2, e3, e4] ++ compactEncode content.length ++ content := by
  simp only [decode_item_from_parts] at hfp
  by_cases h4 : index = 4
  · rw [if_pos h4] at hfp
    subst h4
    by_cases hb : ([e1, e2, e3, e4] : List Nat) = babeEngine
    · rw [if_pos hb] at hfp
      cases hlog : babeConsensusLogFromSlice content with
      | error e => rw [hlog] at hfp; simp [Except.map] at hfp
      | ok log =>
        rw [hlog] at hfp
        simp only [Except.map, Except.ok.injEq] at hfp
        subst hfp
        have henc := babeConsensusLog_roundtrip hlog
        simp only [itemEncode, henc, hb]
    · rw [if_neg hb] at hfp
      by_cases hf : ([e1, e2, e3, e4] : List Nat) = frnkEngine
      · rw [if_pos hf] at hfp
        cases hlog : grandpaConsensusLogFromSlice content with
        | error e => rw [hlog] at hfp; simp [Except.map] at hfp
        | ok pr =>
          obtain ⟨t0, p0⟩ := pr
          rw [hlog] at hfp
          simp only [Except.map, Except.ok.injEq] at hfp
          subst hfp
          have henc := grandpaConsensusLog_roundtrip hlog
          simp only [itemEncode, henc, hf]
      · rw [if_neg hf] at hfp
        simp at hfp
  · rw [if_neg h4] at hfp
    by_cases h5 : index = 5
    · rw [if_pos h5] at hfp
      subst h5
      by_cases hb : ([e1, e2, e3, e4] : List Nat) = babeEngine
      · rw [if_pos hb] at hfp
        by_cases hlen : content.length = 64
        · rw [if_pos hlen] at hfp
          simp only [Except.ok.injEq] at hfp
          subst hfp
          simp only [itemEncode, hb, hlen]
        · rw [if_neg hlen] at hfp
          simp at hfp
      · rw [if_neg hb] at hfp
        simp at hfp
    · rw [if_neg h5] at hfp
      have h6 : index = 6 := by rcases h456 with h | h | h <;> omega
      subst h6
      by_cases hb : ([e1, e2, e3, e4] : List Nat) = babeEngine
      · rw [if_pos hb] at hfp
        cases hpd : babePreDigestFromSlice content with
        | error e => rw [hpd] at hfp; simp [Except.map] at hfp
        | ok pr =>
          obtain ⟨t0, p0⟩ := pr
          rw [hpd] at hfp
          simp only [Except.map, Except.ok.injEq] at hfp
          subst hfp
          have henc := babePreDigest_roundtrip hpd
          simp only [itemEncode, henc, hb]
      · rw [if_neg hb] at hfp
        simp at hfp

theorem decodeItem_encode : ∀ (s : List Nat) (it : DigestItem) (rest : List Nat),
    (∀ x ∈ s, x < 256) → decode_item s = .ok (it, rest) →
    itemEncode it ++ rest = s := by
  intro s it rest hbytes hdec
  match s with
  | [] => simp [decode_item] at hdec
  | index :: s1 =>
    simp only [decode_item] at hdec
    by_cases h456 : index = 4 ∨ index = 5 ∨ index = 6
    · rw [if_pos h456] at hdec
      match s1 with
      | [] => simp at hdec
      | [e1] => simp at hdec
      | [e1, e2] => simp at hdec
      | [e1, e2, e3] => simp at hdec
      | e1 :: e2 :: e3 :: e4 :: s2 =>
        simp only at hdec
        cases hcd : compactDecode s2 with
        | none => rw [hcd] at hdec; simp at hdec
        | some pr =>
          obtain ⟨len, s3⟩ := pr
          rw [hcd] at hdec
          simp only at hdec
          by_cases hlen : s3.length < len
          · rw [if_pos hlen] at hdec; simp at hdec
          · rw [if_neg hlen] at hdec
            cases hfp : decode_item_from_parts index [e1, e2, e3, e4] (s3.take len) with
            | error e => rw [hfp] at hdec; simp at hdec
            | ok item =>
              rw [hfp] at hdec
              simp only [Except.ok.injEq, Prod.mk.injEq] at hdec
              obtain ⟨hit, hrest⟩ := hdec
              subst hit; subst hrest
              have hs2bytes : ∀ x ∈ s2, x < 256 := fun x hx => hbytes x (by simp [hx])
              have hcenc : compactEncode len ++ s3 = s2 :=
                compactDecode_encode s2 len s3 hs2bytes hcd
              have htlen : (s3.take len).length = len := by
                rw [List.length_take]; omega
              rw [itemEncode_from_parts h456 hfp, htlen]
              simp only [List.cons_append, List.append_assoc, List.take_append_drop]
              rw [← List.append_assoc, ← List.cons_append]
              simp [hcenc]
    · rw [if_neg h456] at hdec
      by_cases h2 : index = 2
      · rw [if_pos h2] at hdec
        by_cases hl : s1.length < 32
        · rw [if_pos hl] at hdec; simp at hdec
        · rw [if_neg hl] at hdec
          simp only [Except.ok.injEq, Prod.mk.injEq] at hdec
          obtain ⟨hit, hrest⟩ := hdec
          subst hit; subst hrest
          simp [itemEncode, h2, List.take_append_drop]
      · rw [if_neg h2] at hdec
        by_cases h7 : index = 7
        · rw [if_pos h7] at hdec
          match s1 with
          | [] => simp [changesTrieSignalDecode, Except.map] at hdec
          | 0 :: r =>
            simp only [changesTrieSignalDecode, Except.map, Except.ok.injEq,
              Prod.mk.injEq] at hdec
            obtain ⟨hit, hrest⟩ := hdec
            subst hit; subst hrest
            simp [itemEncode, h7]
          | (n + 1) :: r => simp [changesTrieSignalDecode, Except.map] at hdec
        · rw [if_neg h7] at hdec
          simp at hdec

theorem decode_item_of_encode (it : DigestItem) (r : List Nat) (hwf : it.WF) :
    decode_item (itemEncode it ++ r) = .ok (it, r) := by
  cases it with
  | changesTrieRoot h =>
    simp only [DigestItem.WF] at hwf
    simp only [itemEncode, List.cons_append, decode_item, if_true]
    rw [if_neg (show ¬ (h ++ r).length < 32 by
        simp only [List.length_append, hwf]; omega)]
    rw [show List.take 32 (h ++ r) = h by
        have := List.take_left h r; rwa [hwf] at this,
      show List.drop 32 (h ++ r) = r by
        have := List.drop_left h r; rwa [hwf] at this,
      if_neg (by norm_num : ¬ ((2 : Nat) = 4 ∨ (2 : Nat) = 5 ∨ (2 : Nat) = 6))]
  | babePreDigest t p =>
    simp only [DigestItem.WF] at hwf
    obtain ⟨ht, hlen⟩ := hwf
    have hfp : decode_item_from_parts 6 [66, 65, 66, 69] (t :: p)
        = .ok (.babePreDigest t p) := by
      simp only [decode_item_from_parts, babeEngine]
      norm_num
      rcases ht with h1 | h1 <;> subst h1 <;> rfl
    simp only [itemEncode, babeEngine, List.cons_append, List.nil_append,
      List.append_assoc, decode_item]
    norm_num
    rw [compactDecode_of_encode (p.length + 1) (t :: (p ++ r)) (by omega)]
    dsimp only
    rw [if_neg (by simp only [List.length_cons, List.length_append]; omega)]
    rw [List.take_succ_cons, List.take_left, hfp]
    simp only [List.drop_succ_cons, List.drop_left]
  | babeConsensus log =>
    simp only [DigestItem.WF] at hwf
    have hfp : decode_item_from_parts 4 [66, 65, 66, 69] (babeConsensusLogEncode log)
        = .ok (.babeConsensus log) := by
      simp only [decode_item_from_parts, babeEngine]
      norm_num
      cases log <;> rfl
    simp only [itemEncode, babeEngine, List.cons_append, List.nil_append,
      List.append_assoc, decode_item]
    norm_num
    rw [compactDecode_of_encode (babeConsensusLogEncode log).length
      (babeConsensusLogEncode log ++ r) hwf]
    dsimp only
    rw [if_neg (by simp only [List.length_append]; omega)]
    rw [List.take_left, hfp]
    simp only [List.drop_left]
  | grandpaConsensus t p =>
    simp only [DigestItem.WF] at hwf
    obtain ⟨ht, hlen⟩ := hwf
    have hfp : decode_item_from_parts 4 [70, 82, 78, 75] (t :: p)
        = .ok (.grandpaConsensus t p) := by
      simp only [decode_item_from_parts, babeEngine, frnkEngine]
      norm_num
      rcases ht with h1 | h1 | h1 <;> subst h1 <;> rfl
    simp only [itemEncode, frnkEngine, List.cons_append, List.nil_append,
      List.append_assoc, decode_item]
    norm_num
    rw [compactDecode_of_encode (p.length + 1) (t :: (p ++ r)) (by omega)]
    dsimp only
    rw [if_neg (by simp only [List.length_cons, List.length_append]; omega)]
    rw [List.take_succ_cons, List.take_left, hfp]
    simp only [List.drop_succ_cons, List.drop_left]
  | babeSeal sl =>
    simp only [DigestItem.WF] at hwf
    have hfp : decode_item_from_parts 5 [66, 65, 66, 69] sl = .ok (.babeSeal sl) := by
      simp only [decode_item_from_parts, babeEngine]
      norm_num
      intro hc
      exact absurd hwf hc
    simp only [itemEncode, babeEngine, List.cons_append, List.nil_append,
      List.append_assoc, decode_item]
    norm_num
    rw [compactDecode_of_encode 64 (sl ++ r) (by norm_num)]
    dsimp only
    rw [if_neg (show ¬ (sl ++ r).length < 64 by
        simp only [List.length_append, hwf]; omega)]
    rw [show List.take 64 (sl ++ r) = sl by
        have := List.take_left sl r; rwa [hwf] at this, hfp]
    rw [show List.drop 64 (sl ++ r) = r by
        have := List.drop_left sl r; rwa [hwf] at this]
  | changesTrieSignal =>
    simp [decode_item, itemEncode, changesTrieSignalDecode, Except.map]

/-! ## Scan-level lemmas -/

theorem digestScan_decodeItems : ∀ (count itemNum : Nat) (st : DigestScanState)
    (d : List Nat) (st2 : DigestScanState) (rem : List Nat) (len : Nat),
    digestScan len itemNum st d count = .ok (st2, rem) →
    ∃ items, decodeItems count d = some (items, rem)
      ∧ validateItems len itemNum st items = .ok st2 := by
  intro count
  induction count with
  | zero =>
    intro itemNum st d st2 rem len h
    simp only [digestScan, Except.ok.injEq, Prod.mk.injEq] at h
    exact ⟨[], by simp [decodeItems, h.2], by simp [validateItems, h.1]⟩
  | succ c ih =>
    intro itemNum st d st2 rem len h
    simp only [digestScan] at h
    cases hdi : decode_item d with
    | error e => rw [hdi] at h; simp at h
    | ok pr =>
      obtain ⟨item, next⟩ := pr
      rw [hdi] at h
      simp only at h
      cases hv : validateItem len itemNum st item with
      | error e => rw [hv] at h; simp at h
      | ok st3 =>
        rw [hv] at h
        simp only at h
        obtain ⟨items, hd, hval⟩ := ih (itemNum + 1) st3 next st2 rem len h
        refine ⟨item :: items, ?_, ?_⟩
        · simp [decodeItems, hdi, hd]
        · simp [validateItems, hv, hval]

theorem decodeItems_encode : ∀ (count : Nat) (d : List Nat) (items : List DigestItem)
    (rem : List Nat), (∀ x ∈ d, x < 256) →
    decodeItems count d = some (items, rem) →
    (items.map itemEncode).flatten ++ rem = d := by
  intro count
  induction count with
  | zero =>
    intro d items rem _ h
    simp only [decodeItems, Option.some.injEq, Prod.mk.injEq] at h
    rw [← h.1, ← h.2]
    simp
  | succ c ih =>
    intro d items rem hb h
    simp only [decodeItems] at h
    cases hdi : decode_item d with
    | error e => rw [hdi] at h; simp at h
    | ok pr =>
      obtain ⟨it, next⟩ := pr
      rw [hdi] at h
      simp only at h
      cases hdd : decodeItems c next with
      | none => rw [hdd] at h; simp at h
      | some pr2 =>
        obtain ⟨items2, rem2⟩ := pr2
        rw [hdd] at h
        simp only [Option.some.injEq, Prod.mk.injEq] at h
        obtain ⟨h1, h2⟩ := h
        subst h1
        subst h2
        have henc := decodeItem_encode d it next hb hdi
        have hnextb : ∀ x ∈ next, x < 256 := by
          intro x hx
          apply hb
          rw [← henc]
          simp [hx]
        have hrec := ih next items2 _ hnextb hdd
        simp only [List.map_cons, List.flatten_cons, List.append_assoc]
        rw [hrec, henc]

theorem validateItems_append_ok {len : Nat} : ∀ {a : List DigestItem}
    {i : Nat} {st st2 : DigestScanState} (b : List DigestItem),
    validateItems len i st a = .ok st2 →
    validateItems len i st (a ++ b) = validateItems len (i + a.length) st2 b := by
  intro a
  induction a with
  | nil =>
    intro i st st2 b h
    simp only [validateItems, Except.ok.injEq] at h
    subst h
    simp [validateItems]
  | cons it rest ih =>
    intro i st st2 b h
    simp only [validateItems] at h
    cases hv : validateItem len i st it with
    | error e => rw [hv] at h; simp at h
    | ok st3 =>
      rw [hv] at h
      simp only at h
      simp only [List.cons_append, validateItems, hv]
      rw [show rest.append b = rest ++ b from rfl, ih b h]
      congr 1
      simp only [List.length_cons]
      omega

theorem digestScan_of_encoded (len : Nat) : ∀ (items : List DigestItem) (itemNum : Nat)
    (st : DigestScanState) (tail : List Nat),
    (∀ it ∈ items, it.WF) →
    digestScan len itemNum st ((items.map itemEncode).flatten ++ tail) items.length
      = match validateItems len itemNum st items with
        | .ok st2 => .ok (st2, tail)
        | .error e => .error e := by
  intro items
  induction items with
  | nil => intro i st tail _; simp [digestScan, validateItems]
  | cons it rest ih =>
    intro i st tail hwf
    simp only [List.map_cons, List.flatten_cons, List.append_assoc, List.length_cons,
      digestScan]
    rw [decode_item_of_encode it _ (hwf it (by simp))]
    dsimp only
    cases hv : validateItem len i st it with
    | error e => simp only [validateItems, hv]
    | ok st2 =>
      simp only [validateItems, hv]
      exact ih (i + 1) st2 tail (fun x hx => hwf x (by simp [hx]))

theorem validateItem_fields {len i : Nat} {st st2 : DigestScanState} {it : DigestItem}
    (h : validateItem len i st it = .ok st2) :
    (st.babe_predigest_index.isSome → st2.babe_predigest_index.isSome)
    ∧ (st.babe_next_epoch_data_index.isSome → st2.babe_next_epoch_data_index.isSome)
    ∧ (st.babe_next_config_data_index.isSome → st2.babe_next_config_data_index.isSome) := by
  cases it with
  | changesTrieRoot x =>
    simp only [validateItem, Except.ok.injEq] at h
    subst h
    exact ⟨id, id, id⟩
  | babePreDigest t p =>
    simp only [validateItem] at h
    by_cases hn : st.babe_predigest_index.isNone
    · rw [if_pos hn] at h
      simp only [Except.ok.injEq] at h
      subst h
      exact ⟨fun _ => by simp, id, id⟩
    · rw [if_neg hn] at h
      simp at h
  | babeConsensus log =>
    cases log with
    | nextEpochData p =>
      simp only [validateItem] at h
      by_cases hn : st.babe_next_epoch_data_index.isNone
      · rw [if_pos hn] at h
        simp only [Except.ok.injEq] at h
        subst h
        exact ⟨id, fun _ => by simp, id⟩
      · rw [if_neg hn] at h
        simp at h
    | nextConfigData p =>
      simp only [validateItem] at h
      by_cases hn : st.babe_next_config_data_index.isNone
      · rw [if_pos hn] at h
        simp only [Except.ok.injEq] at h
        subst h
        exact ⟨id, id, fun _ => by simp⟩
      · rw [if_neg hn] at h
        simp at h
    | onDisabled p =>
      simp only [validateItem, Except.ok.injEq] at h
      subst h
      exact ⟨id, id, id⟩
  | grandpaConsensus t p =>
    simp only [validateItem, Except.ok.injEq] at h
    subst h
    exact ⟨id, id, id⟩
  | babeSeal sl =>
    simp only [validateItem] at h
    by_cases hn : i = len - 1
    · rw [if_pos hn] at h
      simp only [Except.ok.injEq] at h
      subst h
      exact ⟨id, id, id⟩
    · rw [if_neg hn] at h
      simp at h
  | changesTrieSignal =>
    simp only [validateItem, Except.ok.injEq] at h
    subst h
    exact ⟨id, id, id⟩

theorem validateItems_fields {len : Nat} : ∀ {items : List DigestItem} {i : Nat}
    {st st2 : DigestScanState},
    validateItems len i st items = .ok st2 →
    (st.babe_predigest_index.isSome → st2.babe_predigest_index.isSome)
    ∧ (st.babe_next_epoch_data_index.isSome → st2.babe_next_epoch_data_index.isSome)
    ∧ (st.babe_next_config_data_index.isSome → st2.babe_next_config_data_index.isSome) := by
  intro items
  induction items with
  | nil =>
    intro i st st2 h
    simp only [validateItems, Except.ok.injEq] at h
    subst h
    exact ⟨id, id, id⟩
  | cons it rest ih =>
    intro i st st2 h
    simp only [validateItems] at h
    cases hv : validateItem len i st it with
    | error e => rw [hv] at h; simp at h
    | ok st3 =>
      rw [hv] at h
      simp only at h
      obtain ⟨h1, h2, h3⟩ := validateItem_fields hv
      obtain ⟨g1, g2, g3⟩ := ih h
      exact ⟨fun x => g1 (h1 x), fun x => g2 (h2 x), fun x => g3 (h3 x)⟩

theorem validateItems_predigest_mem {len : Nat} : ∀ {items : List DigestItem}
    {i : Nat} {st st2 : DigestScanState} {t : Nat} {p : List Nat},
    validateItems len i st items = .ok st2 →
    DigestItem.babePreDigest t p ∈ items →
    st2.babe_predigest_index.isSome := by
  intro items
  induction items with
  | nil => intro i st st2 t p _ hmem; simp at hmem
  | cons it rest ih =>
    intro i st st2 t p h hmem
    simp only [validateItems] at h
    cases hv : validateItem len i st it with
    | error e => rw [hv] at h; simp at h
    | ok st3 =>
      rw [hv] at h
      simp only at h
      rcases List.mem_cons.mp hmem with heq | hmem2
      · subst heq
        simp only [validateItem] at hv
        by_cases hn : st.babe_predigest_index.isNone
        · rw [if_pos hn] at hv
          simp only [Except.ok.injEq] at hv
          subst hv
          exact (validateItems_fields h).1 (by simp)
        · rw [if_neg hn] at hv
          simp at hv
      · exact ih h hmem2

theorem validateItems_epochdata_mem {len : Nat} : ∀ {items : List DigestItem}
    {i : Nat} {st st2 : DigestScanState} {p : List Nat},
    validateItems len i st items = .ok st2 →
    DigestItem.babeConsensus (.nextEpochData p) ∈ items →
    st2.babe_next_epoch_data_index.isSome := by
  intro items
  induction items with
  | nil => intro i st st2 p _ hmem; simp at hmem
  | cons it rest ih =>
    intro i st st2 p h hmem
    simp only [validateItems] at h
    cases hv : validateItem len i st it with
    | error e => rw [hv] at h; simp at h
    | ok st3 =>
      rw [hv] at h
      simp only at h
      rcases List.mem_cons.mp hmem with heq | hmem2
      · subst heq
        simp only [validateItem] at hv
        by_cases hn : st.babe_next_epoch_data_index.isNone
        · rw [if_pos hn] at hv
          simp only [Except.ok.injEq] at hv
          subst hv
          exact (validateItems_fields h).2.1 (by simp)
        · rw [if_neg hn] at hv
          simp at hv
      · exact ih h hmem2

theorem validateItems_configdata_mem {len : Nat} : ∀ {items : List DigestItem}
    {i : Nat} {st st2 : DigestScanState} {p : List Nat},
    validateItems len i st items = .ok st2 →
    DigestItem.babeConsensus (.nextConfigData p) ∈ items →
    st2.babe_next_config_data_index.isSome := by
  intro items
  induction items with
  | nil => intro i st st2 p _ hmem; simp at hmem
  | cons it rest ih =>
    intro i st st2 p h hmem
    simp only [validateItems] at h
    cases hv : validateItem len i st it with
    | error e => rw [hv] at h; simp at h
    | ok st3 =>
      rw [hv] at h
      simp only at h
      rcases List.mem_cons.mp hmem with heq | hmem2
      · subst heq
        simp only [validateItem] at hv
        by_cases hn : st.babe_next_config_data_index.isNone
        · rw [if_pos hn] at hv
          simp only [Except.ok.injEq] at hv
          subst hv
          exact (validateItems_fields h).2.2 (by simp)
        · rw [if_neg hn] at hv
          simp at hv
      · exact ih h hmem2

theorem validateItem_epoch_eq {len i : Nat} {st st2 : DigestScanState} {it : DigestItem}
    (h : validateItem len i st it = .ok st2)
    (hne : ∀ p, it ≠ .babeConsensus (.nextEpochData p)) :
    st2.babe_next_epoch_data_index = st.babe_next_epoch_data_index := by
  cases it with
  | changesTrieRoot x =>
    simp only [validateItem, Except.ok.injEq] at h
    subst h; rfl
  | babePreDigest t p =>
    simp only [validateItem] at h
    by_cases hn : st.babe_predigest_index.isNone
    · rw [if_pos hn] at h
      simp only [Except.ok.injEq] at h
      subst h; rfl
    · rw [if_neg hn] at h; simp at h
  | babeConsensus log =>
    cases log with
    | nextEpochData p => exact absurd rfl (hne p)
    | nextConfigData p =>
      simp only [validateItem] at h
      by_cases hn : st.babe_next_config_data_index.isNone
      · rw [if_pos hn] at h
        simp only [Except.ok.injEq] at h
        subst h; rfl
      · rw [if_neg hn] at h; simp at h
    | onDisabled p =>
      simp only [validateItem, Except.ok.injEq] at h
      subst h; rfl
  | grandpaConsensus t p =>
    simp only [validateItem, Except.ok.injEq] at h
    subst h; rfl
  | babeSeal sl =>
    simp only [validateItem] at h
    by_cases hn : i = len - 1
    · rw [if_pos hn] at h
      simp only [Except.ok.injEq] at h
      subst h; rfl
    · rw [if_neg hn] at h; simp at h
  | changesTrieSignal =>
    simp only [validateItem, Except.ok.injEq] at h
    subst h; rfl

theorem validateItems_epoch_isSome {len : Nat} : ∀ {items : List DigestItem}
    {i : Nat} {st st2 : DigestScanState},
    validateItems len i st items = .ok st2 →
    st2.babe_next_epoch_data_index.isSome →
    st.babe_next_epoch_data_index.isSome
      ∨ ∃ p, DigestItem.babeConsensus (.nextEpochData p) ∈ items := by
  intro items
  induction items with
  | nil =>
    intro i st st2 h hs
    simp only [validateItems, Except.ok.injEq] at h
    subst h
    exact Or.inl hs
  | cons it rest ih =>
    intro i st st2 h hs
    simp only [validateItems] at h
    cases hv : validateItem len i st it with
    | error e => rw [hv] at h; simp at h
    | ok st3 =>
      rw [hv] at h
      simp only at h
      rcases ih h hs with hs3 | ⟨p, hp⟩
      · by_cases hise : ∃ p, it = .babeConsensus (.nextEpochData p)
        · obtain ⟨p, hp⟩ := hise
          exact Or.inr ⟨p, by simp [hp]⟩
        · rw [validateItem_epoch_eq hv (fun p hp => hise ⟨p, hp⟩)] at hs3
          exact Or.inl hs3
      · exact Or.inr ⟨p, by simp [hp]⟩

/-! ## Digest- and header-level round trips -/

theorem from_slice_encode {b : List Nat} {d : DigestRef}
    (hbytes : ∀ x ∈ b, x < 256)
    (h : DigestRef.from_slice b = .ok d) :
    (d.scale_encoding).flatten = b := by
  simp only [DigestRef.from_slice] at h
  cases hcd : compactDecode b with
  | none => rw [hcd] at h; simp at h
  | some pr =>
    obtain ⟨len, rest⟩ := pr
    rw [hcd] at h
    simp only at h
    cases hsc : digestScan len 0 DigestScanState.init rest len with
    | error e => rw [hsc] at h; simp at h
    | ok pr2 =>
      obtain ⟨st, remaining⟩ := pr2
      rw [hsc] at h
      simp only at h
      cases remaining with
      | cons a as => simp [List.isEmpty] at h
      | nil =>
        simp only [List.isEmpty_nil, Bool.true_eq_false, not_true_eq_false,
          if_false, not_false_eq_true, if_true] at h
        by_cases hcfg : st.babe_next_config_data_index.isSome
            ∧ st.babe_next_epoch_data_index.isNone
        · rw [if_pos hcfg] at h
          simp at h
        · rw [if_neg hcfg] at h
          simp only [Except.ok.injEq] at h
          subst h
          have hrestb : ∀ x ∈ rest, x < 256 := by
            intro x hx
            apply hbytes
            rw [← compactDecode_encode b len rest hbytes hcd]
            simp [hx]
          obtain ⟨items, hdec, hval⟩ :=
            digestScan_decodeItems len 0 DigestScanState.init rest st [] len hsc
          have hlogs : (DigestRef.mk len rest st.babe_seal_index st.babe_predigest_index
              st.babe_next_epoch_data_index st.babe_next_config_data_index).logs
              = items := by
            simp [DigestRef.logs, hdec]
          simp only [DigestRef.scale_encoding, hlogs, List.flatten_cons]
          have henc := decodeItems_encode len rest items [] hrestb hdec
          rw [List.append_nil] at henc
          rw [henc]
          exact compactDecode_encode b len rest hbytes hcd

theorem decode_scale_encoding {b : List Nat} {h : HeaderRef}
    (hbytes : ∀ x ∈ b, x < 256) (hd : decode b = .ok h) :
    (h.scale_encoding).flatten = b := by
  simp only [decode] at hd
  by_cases h33 : b.length < 32 + 1
  · rw [if_pos h33] at hd; simp at hd
  · rw [if_neg h33] at hd
    cases hcd : compactDecode (b.drop 32) with
    | none => rw [hcd] at hd; simp at hd
    | some pr =>
      obtain ⟨number, r2⟩ := pr
      rw [hcd] at hd
      simp only at hd
      by_cases h65 : r2.length < 32 + 32 + 1
      · rw [if_pos h65] at hd; simp at hd
      · rw [if_neg h65] at hd
        cases hfs : DigestRef.from_slice ((r2.drop 32).drop 32) with
        | error e => rw [hfs] at hd; simp at hd
        | ok dg =>
          rw [hfs] at hd
          simp only [Except.ok.injEq] at hd
          subst hd
          have hdropb : ∀ x ∈ b.drop 32, x < 256 := fun x hx =>
            hbytes x (List.drop_subset _ _ hx)
          have hr2b : ∀ x ∈ r2, x < 256 := by
            intro x hx
            apply hdropb
            rw [← compactDecode_encode (b.drop 32) number r2 hdropb hcd]
            simp [hx]
          have hr4b : ∀ x ∈ (r2.drop 32).drop 32, x < 256 := fun x hx =>
            hr2b x (List.drop_subset _ _ (List.drop_subset _ _ hx))
          have hds := from_slice_encode hr4b hfs
          simp only [HeaderRef.scale_encoding, List.flatten_cons, List.append_assoc]
          rw [hds, List.take_append_drop, List.take_append_drop,
            compactDecode_encode (b.drop 32) number r2 hdropb hcd,
            List.take_append_drop]

theorem foldl_append_flatten : ∀ (l : List (List Nat)) (acc : List Nat),
    l.foldl (fun a buf => a ++ buf) acc = acc ++ l.flatten := by
  intro l
  induction l with
  | nil => intro acc; simp
  | cons x t ih =>
    intro acc
    simp only [List.foldl_cons, List.flatten_cons, ih, List.append_assoc]

/-! ## Longest-common-prefix lemmas -/

theorem lcp2_pre_left : ∀ a b : List Nat, lcp2 a b <+: a := by
  intro a
  induction a with
  | nil => intro b; cases b <;> exact List.nil_prefix
  | cons x as ih =>
    intro b
    cases b with
    | nil => exact List.nil_prefix
    | cons y bs =>
      simp only [lcp2]
      by_cases hxy : x = y
      · rw [if_pos hxy]
        exact (List.cons_prefix_cons).mpr ⟨rfl, ih bs⟩
      · rw [if_neg hxy]
        exact List.nil_prefix

theorem lcp2_pre_right : ∀ a b : List Nat, lcp2 a b <+: b := by
  intro a
  induction a with
  | nil => intro b; cases b <;> exact List.nil_prefix
  | cons x as ih =>
    intro b
    cases b with
    | nil => exact List.nil_prefix
    | cons y bs =>
      simp only [lcp2]
      by_cases hxy : x = y
      · rw [if_pos hxy]
        exact (List.cons_prefix_cons).mpr ⟨hxy, ih bs⟩
      · rw [if_neg hxy]
        exact List.nil_prefix

theorem lcp2_greatest : ∀ q a b : List Nat, q <+: a → q <+: b → q <+: lcp2 a b := by
  intro q
  induction q with
  | nil => intro a b _ _; exact List.nil_prefix
  | cons x qs ih =>
    intro a b ha hb
    cases a with
    | nil => exact absurd (List.eq_nil_of_prefix_nil ha) (by simp)
    | cons ya as =>
      cases b with
      | nil => exact absurd (List.eq_nil_of_prefix_nil hb) (by simp)
      | cons yb bs =>
        obtain ⟨hxa, hqa⟩ := List.cons_prefix_cons.mp ha
        obtain ⟨hxb, hqb⟩ := List.cons_prefix_cons.mp hb
        simp only [lcp2]
        rw [if_pos (hxa ▸ hxb ▸ rfl : ya = yb)]
        exact List.cons_prefix_cons.mpr ⟨hxa, ih as bs hqa hqb⟩

theorem lcpFold_pre_seed : ∀ (l : List (List Nat)) (a : List Nat), l.foldl lcp2 a <+: a := by
  intro l
  induction l with
  | nil => intro a; exact List.prefix_refl a
  | cons c t ih =>
    intro a
    simp only [List.foldl_cons]
    exact (ih (lcp2 a c)).trans (lcp2_pre_left a c)

theorem lcpFold_pre_mem : ∀ (l : List (List Nat)) (a b : List Nat),
    b ∈ l → l.foldl lcp2 a <+: b := by
  intro l
  induction l with
  | nil => intro a b hb; simp at hb
  | cons c t ih =>
    intro a b hb
    simp only [List.foldl_cons]
    rcases List.mem_cons.mp hb with heq | hmem
    · subst heq
      exact (lcpFold_pre_seed t (lcp2 a b)).trans (lcp2_pre_right a b)
    · exact ih (lcp2 a c) b hmem

theorem lcpFold_greatest : ∀ (l : List (List Nat)) (a q : List Nat),
    q <+: a → (∀ b ∈ l, q <+: b) → q <+: l.foldl lcp2 a := by
  intro l
  induction l with
  | nil => intro a q ha _; exact ha
  | cons c t ih =>
    intro a q ha hl
    simp only [List.foldl_cons]
    exact ih (lcp2 a c) q (lcp2_greatest q a c ha (hl c (by simp)))
      fun b hb => hl b (by simp [hb])

/-! ## Claims -/

/-- C1: `root_merkle_value` is a pure function of the final map contents: two
call sequences of `Trie::insert`/`Trie::remove` that build tries holding
equal entry maps yield equal 32-byte digests, independent of the order of
the calls. -/
theorem claim_c1_order_independent_root (ops1 ops2 : List TrieOp)
    (h : ∀ k, assocGet k (applyOps ops1).entries = assocGet k (applyOps ops2).entries) :
    (applyOps ops1).root_merkle_value = (applyOps ops2).root_merkle_value := by
  have he : (applyOps ops1).entries = (applyOps ops2).entries :=
    sorted_ext _ _ (applyOps_sorted ops1) (applyOps_sorted ops2) h
  simp only [Trie.root_merkle_value]
  rw [he]

theorem claim_c1_witness :
    (applyOps [TrieOp.ins [1] [2], TrieOp.ins [3] [4]]).root_merkle_value
      = (applyOps [TrieOp.ins [3] [4], TrieOp.ins [1] [2]]).root_merkle_value :=
  claim_c1_order_independent_root _ _ fun _ => rfl

/-- C2 (counterexample): the claimed 15-byte vector with `0x05` child-length
bytes is not the root encoding of the two-entry trie: the child lengths are
SCALE-compact encoded, and `Compact(5)` is the byte `0x14`, not `0x05`
(exactly what `to_compact(0x05)` evaluates to in the repository's
`trie_root_unhashed` test). -/
theorem claim_c2_counterexample :
    trieNodeValue ((Trie.new.insert [0x48, 0x19] [0xfe]).insert
        [0x13, 0x14] [0xff]).entries
      ≠ [0x80, 0x12, 0x00, 0x05, 0x43, 0x03, 0x14, 0x04, 0xff,
         0x05, 0x43, 0x08, 0x19, 0x04, 0xfe] := by
  decide

/-- C2 (amended): inserting `0x4819 → 0xfe` and `0x1314 → 0xff` into an empty
trie gives a root whose canonical pre-hash encoding is the 15 bytes
`80 12 00 14 43 03 14 04 ff 14 43 08 19 04 fe`: a branch with no own value,
children at nibble slots 1 and 4, each child a 5-byte inline leaf encoding
length-prefixed by `Compact(5) = 0x14`. -/
theorem claim_c2_branch_encoding :
    trieNodeValue ((Trie.new.insert [0x48, 0x19] [0xfe]).insert
        [0x13, 0x14] [0xff]).entries
      = [0x80, 0x12, 0x00, 0x14, 0x43, 0x03, 0x14, 0x04, 0xff,
         0x14, 0x43, 0x08, 0x19, 0x04, 0xfe] := by
  decide

/-- C3: the trie holding exactly `0xaa → 0xbb` has root pre-hash encoding
`42 aa 04 bb`: leaf header for 2 nibbles, the key byte, `Compact(1) = 0x04`,
and the value byte. -/
theorem claim_c3_single_entry_encoding :
    trieNodeValue (Trie.new.insert [0xaa] [0xbb]).entries
      = [0x42, 0xaa, 0x04, 0xbb] := by
  decide

/-- C4: the empty trie's root node has canonical pre-hash encoding `0x00`. -/
theorem claim_c4_empty_trie_encoding :
    trieNodeValue Trie.new.entries = [0x00] := by
  decide

/-- C5 (counterexample): on the empty input set `common_prefix` returns
`none` — as the repository's `common_prefix_works_empty` test asserts — not
the empty key the claim states. -/
theorem claim_c5_counterexample :
    ¬ ( common_prefix ([] : List (List Nat)) = some []) := by
  decide

/-- C5 (amended): for every non-empty set of nibble keys, `common_prefix`
returns a key that is a prefix of every member and is not extendable by any
nibble; for the empty input set it returns `none` (no key), not the empty
key. -/
theorem claim_c5_common_prefix_longest (k : List Nat) (ks : List (List Nat)) :
    ∃ p, common_prefix (k :: ks) = some p
      ∧ (∀ m ∈ k :: ks, p <+: m)
      ∧ (∀ n : Nat, ¬ ∀ m ∈ k :: ks, p ++ [n] <+: m) := by
  refine ⟨ks.foldl lcp2 k, rfl, ?_, ?_⟩
  · intro m hm
    rcases List.mem_cons.mp hm with heq | hmem
    · subst heq
      exact lcpFold_pre_seed ks m
    · exact lcpFold_pre_mem ks k m hmem
  · intro n hext
    have hq : ks.foldl lcp2 k ++ [n] <+: ks.foldl lcp2 k :=
      lcpFold_greatest ks k _ (hext k (by simp)) fun b hb => hext b (by simp [hb])
    have := hq.length_le
    simp at this

theorem claim_c5_witness :
    ∃ p, common_prefix [[5, 4, 6], [5, 4, 9, 12]] = some p
      ∧ (∀ m ∈ [[5, 4, 6], [5, 4, 9, 12]], p <+: m)
      ∧ (∀ n : Nat, ¬ ∀ m ∈ [[5, 4, 6], [5, 4, 9, 12]], p ++ [n] <+: m) :=
  claim_c5_common_prefix_longest [5, 4, 6] [[5, 4, 9, 12]]

/-- C6: on a well-formed trie, removing an absent key returns `None` and
leaves the root digest unchanged, and removing a present entry then
reinserting the identical key/value restores the original root digest. -/
theorem claim_c6_remove_reinsert (t : Trie) (k v : List Nat) (hwf : t.WF) :
    (assocGet k t.entries = none →
      (t.remove k).1 = none
        ∧ (t.remove k).2.root_merkle_value = t.root_merkle_value)
    ∧ (assocGet k t.entries = some v →
      ((t.remove k).2.insert k v).root_merkle_value = t.root_merkle_value) := by
  constructor
  · intro hnone
    refine ⟨hnone, ?_⟩
    simp only [Trie.remove, Trie.root_merkle_value]
    rw [btreeErase_absent hnone]
  · intro hsome
    simp only [Trie.remove, Trie.insert, Trie.root_merkle_value]
    rw [btreeInsert_erase hwf hsome]

theorem claim_c6_witness :
    ((Trie.mk [([1], [2])]).remove [9]).1 = none
    ∧ ((Trie.mk [([1], [2])]).remove [9]).2.root_merkle_value
        = (Trie.mk [([1], [2])]).root_merkle_value
    ∧ (((Trie.mk [([1], [2])]).remove [1]).2.insert [1] [2]).root_merkle_value
        = (Trie.mk [([1], [2])]).root_merkle_value := by
  refine ⟨?_, ?_, ?_⟩
  · exact ((claim_c6_remove_reinsert (Trie.mk [([1], [2])]) [9] []
      rfl).1 (by decide)).1
  · exact ((claim_c6_remove_reinsert (Trie.mk [([1], [2])]) [9] []
      rfl).1 (by decide)).2
  · exact (claim_c6_remove_reinsert (Trie.mk [([1], [2])]) [1] [2]
      rfl).2 (by decide)

/-- C8: the block-hashing primitive always returns exactly 32 bytes, and
hashing a list of buffers equals hashing the concatenation of those buffers. -/
theorem claim_c8_hash_contract (bufs : List (List Nat)) :
    (hash_from_scale_encoded_header_vectored bufs).length = 32
    ∧ hash_from_scale_encoded_header_vectored bufs
        = hash_from_scale_encoded_header bufs.flatten := by
  constructor
  · exact blake2b256_length _
  · simp only [hash_from_scale_encoded_header, hash_from_scale_encoded_header_vectored,
      foldl_append_flatten]
    simp

theorem claim_c8_witness :
    (hash_from_scale_encoded_header_vectored [[1, 2], [3]]).length = 32
    ∧ hash_from_scale_encoded_header_vectored [[1, 2], [3]]
        = hash_from_scale_encoded_header ([[1, 2], [3]] : List (List Nat)).flatten :=
  claim_c8_hash_contract [[1, 2], [3]]

/-- C9: every byte slice accepted by `decode` is reproduced exactly by
concatenating the buffers of the decoded header's `scale_encoding`, and
consequently `HeaderRef::hash` agrees with `hash_from_scale_encoded_header`
on the original bytes. -/
theorem claim_c9_roundtrip (b : List Nat) (h : HeaderRef)
    (hbytes : ∀ x ∈ b, x < 256) (hd : decode b = .ok h) :
    (h.scale_encoding).flatten = b
    ∧ h.hash = hash_from_scale_encoded_header b := by
  have he := decode_scale_encoding hbytes hd
  refine ⟨he, ?_⟩
  simp only [HeaderRef.hash, hash_from_scale_encoded_header,
    hash_from_scale_encoded_header_vectored, foldl_append_flatten]
  simp [he]

theorem claim_c9_witness :
    ((HeaderRef.mk (List.replicate 32 0) 0 (List.replicate 32 0) (List.replicate 32 0)
        (DigestRef.mk 0 [] none none none none)).scale_encoding).flatten
      = List.replicate 32 0 ++ [0] ++ List.replicate 64 0 ++ [0]
    ∧ (HeaderRef.mk (List.replicate 32 0) 0 (List.replicate 32 0) (List.replicate 32 0)
        (DigestRef.mk 0 [] none none none none)).hash
      = hash_from_scale_encoded_header
          (List.replicate 32 0 ++ [0] ++ List.replicate 64 0 ++ [0]) :=
  claim_c9_roundtrip (List.replicate 32 0 ++ [0] ++ List.replicate 64 0 ++ [0])
    (HeaderRef.mk (List.replicate 32 0) 0 (List.replicate 32 0) (List.replicate 32 0)
      (DigestRef.mk 0 [] none none none none))
    (by decide) rfl

/-! ## Digest decoder error claims -/

theorem from_slice_encoded_items (items : List DigestItem)
    (hwf : ∀ it ∈ items, it.WF) (hlen : items.length < 2 ^ 64) :
    DigestRef.from_slice (compactEncode items.length ++ (items.map itemEncode).flatten)
      = match validateItems items.length 0 DigestScanState.init items with
        | .ok st =>
          if st.babe_next_config_data_index.isSome
              ∧ st.babe_next_epoch_data_index.isNone then
            .error .UnexpectedBabeConfigDescriptor
          else
            .ok ⟨items.length, (items.map itemEncode).flatten, st.babe_seal_index,
              st.babe_predigest_index, st.babe_next_epoch_data_index,
              st.babe_next_config_data_index⟩
        | .error e => .error e := by
  simp only [DigestRef.from_slice]
  rw [compactDecode_of_encode items.length _ hlen]
  dsimp only
  have hb := digestScan_of_encoded items.length items 0 DigestScanState.init [] hwf
  rw [List.append_nil] at hb
  rw [hb]
  cases hv : validateItems items.length 0 DigestScanState.init items with
  | error e => rfl
  | ok st => simp [List.isEmpty]

/-- C7: the digest decoder validates the closed variant set in one forward
pass, rejecting eagerly: when the items so far are fine, a BABE seal
followed by another item makes `DigestRef::from_slice` return
`SealIsntLastItem`, and a second pre-runtime digest / next-epoch descriptor
/ next-config descriptor makes it return the corresponding `Multiple*`
error. -/
theorem claim_c7_digest_validation_errors :
    (∀ (pre rest : List DigestItem) (x : DigestItem) (s : List Nat)
        (st : DigestScanState),
      (∀ it ∈ pre ++ DigestItem.babeSeal s :: x :: rest, it.WF) →
      (pre ++ DigestItem.babeSeal s :: x :: rest).length < 2 ^ 64 →
      validateItems (pre ++ DigestItem.babeSeal s :: x :: rest).length 0
          DigestScanState.init pre = .ok st →
      DigestRef.from_slice
          (compactEncode (pre ++ DigestItem.babeSeal s :: x :: rest).length
            ++ ((pre ++ DigestItem.babeSeal s :: x :: rest).map itemEncode).flatten)
        = .error .SealIsntLastItem)
    ∧ (∀ (pre mid rest : List DigestItem) (t1 t2 : Nat) (p1 p2 : List Nat)
        (st : DigestScanState),
      (∀ it ∈ pre ++ DigestItem.babePreDigest t1 p1
          :: (mid ++ DigestItem.babePreDigest t2 p2 :: rest), it.WF) →
      (pre ++ DigestItem.babePreDigest t1 p1
          :: (mid ++ DigestItem.babePreDigest t2 p2 :: rest)).length < 2 ^ 64 →
      validateItems (pre ++ DigestItem.babePreDigest t1 p1
          :: (mid ++ DigestItem.babePreDigest t2 p2 :: rest)).length 0
          DigestScanState.init (pre ++ DigestItem.babePreDigest t1 p1 :: mid) = .ok st →
      DigestRef.from_slice
          (compactEncode (pre ++ DigestItem.babePreDigest t1 p1
              :: (mid ++ DigestItem.babePreDigest t2 p2 :: rest)).length
            ++ ((pre ++ DigestItem.babePreDigest t1 p1
              :: (mid ++ DigestItem.babePreDigest t2 p2 :: rest)).map itemEncode).flatten)
        = .error .MultipleBabePreRuntimeDigests)
    ∧ (∀ (pre mid rest : List DigestItem) (p1 p2 : List Nat) (st : DigestScanState),
      (∀ it ∈ pre ++ DigestItem.babeConsensus (.nextEpochData p1)
          :: (mid ++ DigestItem.babeConsensus (.nextEpochData p2) :: rest), it.WF) →
      (pre ++ DigestItem.babeConsensus (.nextEpochData p1)
          :: (mid ++ DigestItem.babeConsensus (.nextEpochData p2) :: rest)).length < 2 ^ 64 →
      validateItems (pre ++ DigestItem.babeConsensus (.nextEpochData p1)
          :: (mid ++ DigestItem.babeConsensus (.nextEpochData p2) :: rest)).length 0
          DigestScanState.init
          (pre ++ DigestItem.babeConsensus (.nextEpochData p1) :: mid) = .ok st →
      DigestRef.from_slice
          (compactEncode (pre ++ DigestItem.babeConsensus (.nextEpochData p1)
              :: (mid ++ DigestItem.babeConsensus (.nextEpochData p2) :: rest)).length
            ++ ((pre ++ DigestItem.babeConsensus (.nextEpochData p1)
              :: (mid ++ DigestItem.babeConsensus (.nextEpochData p2) :: rest)).map
                itemEncode).flatten)
        = .error .MultipleBabeEpochDescriptors)
    ∧ (∀ (pre mid rest : List DigestItem) (p1 p2 : List Nat) (st : DigestScanState),
      (∀ it ∈ pre ++ DigestItem.babeConsensus (.nextConfigData p1)
          :: (mid ++ DigestItem.babeConsensus (.nextConfigData p2) :: rest), it.WF) →
      (pre ++ DigestItem.babeConsensus (.nextConfigData p1)
          :: (mid ++ DigestItem.babeConsensus (.nextConfigData p2) :: rest)).length < 2 ^ 64 →
      validateItems (pre ++ DigestItem.babeConsensus (.nextConfigData p1)
          :: (mid ++ DigestItem.babeConsensus (.nextConfigData p2) :: rest)).length 0
          DigestScanState.init
          (pre ++ DigestItem.babeConsensus (.nextConfigData p1) :: mid) = .ok st →
      DigestRef.from_slice
          (compactEncode (pre ++ DigestItem.babeConsensus (.nextConfigData p1)
              :: (mid ++ DigestItem.babeConsensus (.nextConfigData p2) :: rest)).length
            ++ ((pre ++ DigestItem.babeConsensus (.nextConfigData p1)
              :: (mid ++ DigestItem.babeConsensus (.nextConfigData p2) :: rest)).map
                itemEncode).flatten)
        = .error .MultipleBabeConfigDescriptors) := by
  refine ⟨?_, ?_, ?_, ?_⟩
  · intro pre rest x s st hwf hlen hpre
    rw [from_slice_encoded_items _ hwf hlen]
    rw [validateItems_append_ok _ hpre]
    have hne : ¬ (0 + pre.length
        = (pre ++ DigestItem.babeSeal s :: x :: rest).length - 1) := by
      simp only [List.length_append, List.length_cons]
      omega
    simp only [validateItems, validateItem, if_neg hne]
  · intro pre mid rest t1 t2 p1 p2 st hwf hlen hpre
    rw [from_slice_encoded_items _ hwf hlen]
    have hassoc : pre ++ DigestItem.babePreDigest t1 p1
          :: (mid ++ DigestItem.babePreDigest t2 p2 :: rest)
        = (pre ++ DigestItem.babePreDigest t1 p1 :: mid)
          ++ (DigestItem.babePreDigest t2 p2 :: rest) := by
      simp
    rw [hassoc] at hpre
    rw [hassoc, validateItems_append_ok _ hpre]
    have hsome : st.babe_predigest_index.isSome :=
      validateItems_predigest_mem (t := t1) (p := p1) hpre (by simp)
    have hnn : ¬ st.babe_predigest_index.isNone = true := by
      cases hopt : st.babe_predigest_index with
      | none => rw [hopt] at hsome; simp at hsome
      | some z => simp
    simp only [validateItems, validateItem, if_neg hnn]
  · intro pre mid rest p1 p2 st hwf hlen hpre
    rw [from_slice_encoded_items _ hwf hlen]
    have hassoc : pre ++ DigestItem.babeConsensus (.nextEpochData p1)
          :: (mid ++ DigestItem.babeConsensus (.nextEpochData p2) :: rest)
        = (pre ++ DigestItem.babeConsensus (.nextEpochData p1) :: mid)
          ++ (DigestItem.babeConsensus (.nextEpochData p2) :: rest) := by
      simp
    rw [hassoc] at hpre
    rw [hassoc, validateItems_append_ok _ hpre]
    have hsome : st.babe_next_epoch_data_index.isSome :=
      validateItems_epochdata_mem (p := p1) hpre (by simp)
    have hnn : ¬ st.babe_next_epoch_data_index.isNone = true := by
      cases hopt : st.babe_next_epoch_data_index with
      | none => rw [hopt] at hsome; simp at hsome
      | some z => simp
    simp only [validateItems, validateItem, if_neg hnn]
  · intro pre mid rest p1 p2 st hwf hlen hpre
    rw [from_slice_encoded_items _ hwf hlen]
    have hassoc : pre ++ DigestItem.babeConsensus (.nextConfigData p1)
          :: (mid ++ DigestItem.babeConsensus (.nextConfigData p2) :: rest)
        = (pre ++ DigestItem.babeConsensus (.nextConfigData p1) :: mid)
          ++ (DigestItem.babeConsensus (.nextConfigData p2) :: rest) := by
      simp
    rw [hassoc] at hpre
    rw [hassoc, validateItems_append_ok _ hpre]
    have hsome : st.babe_next_config_data_index.isSome :=
      validateItems_configdata_mem (p := p1) hpre (by simp)
    have hnn : ¬ st.babe_next_config_data_index.isNone = true := by
      cases hopt : st.babe_next_config_data_index with
      | none => rw [hopt] at hsome; simp at hsome
      | some z => simp
    simp only [validateItems, validateItem, if_neg hnn]

theorem claim_c7_witness :
    DigestRef.from_slice
        (compactEncode ([DigestItem.babeSeal (List.replicate 64 0),
            DigestItem.changesTrieSignal] : List DigestItem).length
          ++ (([DigestItem.babeSeal (List.replicate 64 0),
            DigestItem.changesTrieSignal] : List DigestItem).map itemEncode).flatten)
      = .error .SealIsntLastItem
    ∧ DigestRef.from_slice
        (compactEncode ([DigestItem.babePreDigest 1 [],
            DigestItem.babePreDigest 1 []] : List DigestItem).length
          ++ (([DigestItem.babePreDigest 1 [],
            DigestItem.babePreDigest 1 []] : List DigestItem).map itemEncode).flatten)
      = .error .MultipleBabePreRuntimeDigests
    ∧ DigestRef.from_slice
        (compactEncode ([DigestItem.babeConsensus (.nextEpochData []),
            DigestItem.babeConsensus (.nextEpochData [])] : List DigestItem).length
          ++ (([DigestItem.babeConsensus (.nextEpochData []),
            DigestItem.babeConsensus (.nextEpochData [])] : List DigestItem).map
              itemEncode).flatten)
      = .error .MultipleBabeEpochDescriptors
    ∧ DigestRef.from_slice
        (compactEncode ([DigestItem.babeConsensus (.nextConfigData []),
            DigestItem.babeConsensus (.nextConfigData [])] : List DigestItem).length
          ++ (([DigestItem.babeConsensus (.nextConfigData []),
            DigestItem.babeConsensus (.nextConfigData [])] : List DigestItem).map
              itemEncode).flatten)
      = .error .MultipleBabeConfigDescriptors := by
  refine ⟨?_, ?_, ?_, ?_⟩
  · exact claim_c7_digest_validation_errors.1 [] [] DigestItem.changesTrieSignal
      (List.replicate 64 0) DigestScanState.init (by decide) (by decide) rfl
  · exact claim_c7_digest_validation_errors.2.1 [] [] [] 1 1 [] []
      ⟨none, some 0, none, none⟩ (by decide) (by decide) rfl
  · exact claim_c7_digest_validation_errors.2.2.1 [] [] [] [] []
      ⟨none, none, some 0, none⟩ (by decide) (by decide) rfl
  · exact claim_c7_digest_validation_errors.2.2.2 [] [] [] [] []
      ⟨none, none, none, some 0⟩ (by decide) (by decide) rfl

/-- C10: a decoded digest never carries a next-config descriptor index
without a next-epoch descriptor index; `babe_epoch_information` returns a
configuration change only together with an epoch change; and a digest whose
items contain a config descriptor but no epoch descriptor is rejected by
`DigestRef::from_slice` with `UnexpectedBabeConfigDescriptor`. -/
theorem claim_c10_config_requires_epoch :
    (∀ (b : List Nat) (d : DigestRef), DigestRef.from_slice b = .ok d →
      d.babe_next_config_data_index.isSome → d.babe_next_epoch_data_index.isSome)
    ∧ (∀ (d : DigestRef) (e c : List Nat),
      d.babe_epoch_information = some (e, some c) →
      d.babe_next_epoch_data_index.isSome ∧ d.babe_next_config_data_index.isSome)
    ∧ (∀ (items : List DigestItem) (st : DigestScanState),
      (∀ it ∈ items, it.WF) → items.length < 2 ^ 64 →
      (∃ p, DigestItem.babeConsensus (.nextConfigData p) ∈ items) →
      (∀ p, DigestItem.babeConsensus (.nextEpochData p) ∉ items) →
      validateItems items.length 0 DigestScanState.init items = .ok st →
      DigestRef.from_slice
          (compactEncode items.length ++ ((items.map itemEncode).flatten))
        = .error .UnexpectedBabeConfigDescriptor) := by
  refine ⟨?_, ?_, ?_⟩
  · intro b d h
    simp only [DigestRef.from_slice] at h
    cases hcd : compactDecode b with
    | none => rw [hcd] at h; simp at h
    | some pr =>
      obtain ⟨len, rest⟩ := pr
      rw [hcd] at h
      simp only at h
      cases hsc : digestScan len 0 DigestScanState.init rest len with
      | error e => rw [hsc] at h; simp at h
      | ok pr2 =>
        obtain ⟨st, remaining⟩ := pr2
        rw [hsc] at h
        simp only at h
        cases remaining with
        | cons a as => simp [List.isEmpty] at h
        | nil =>
          simp only [List.isEmpty_nil, Bool.true_eq_false, not_true_eq_false,
            if_false, not_false_eq_true, if_true] at h
          by_cases hcfg : st.babe_next_config_data_index.isSome
              ∧ st.babe_next_epoch_data_index.isNone
          · rw [if_pos hcfg] at h
            simp at h
          · rw [if_neg hcfg] at h
            simp only [Except.ok.injEq] at h
            subst h
            intro hcs
            cases hopt : st.babe_next_epoch_data_index with
            | some z => simp
            | none => exact absurd ⟨hcs, by simp [hopt]⟩ hcfg
  · intro d e c h
    simp only [DigestRef.babe_epoch_information] at h
    cases hopt : d.babe_next_epoch_data_index with
    | none => rw [hopt] at h; simp at h
    | some i =>
      rw [hopt] at h
      simp only at h
      cases hg : d.logs.get? i with
      | none => rw [hg] at h; simp at h
      | some it =>
        rw [hg] at h
        cases it with
        | babeConsensus log =>
          cases log with
          | nextEpochData e0 =>
            simp only at h
            cases hopt2 : d.babe_next_config_data_index with
            | none => rw [hopt2] at h; simp at h
            | some j =>
              rw [hopt2] at h
              simp only at h
              cases hg2 : d.logs.get? j with
              | none => rw [hg2] at h; simp at h
              | some it2 =>
                rw [hg2] at h
                cases it2 with
                | babeConsensus log2 =>
                  cases log2 with
                  | nextConfigData c0 => simp [hopt, hopt2]
                  | nextEpochData c0 => simp at h
                  | onDisabled c0 => simp at h
                | changesTrieRoot z => simp at h
                | babePreDigest z1 z2 => simp at h
                | grandpaConsensus z1 z2 => simp at h
                | babeSeal z => simp at h
                | changesTrieSignal => simp at h
          | nextConfigData e0 => simp at h
          | onDisabled e0 => simp at h
        | changesTrieRoot z => simp at h
        | babePreDigest z1 z2 => simp at h
        | grandpaConsensus z1 z2 => simp at h
        | babeSeal z => simp at h
        | changesTrieSignal => simp at h
  · intro items st hwf hlen hex hno hval
    obtain ⟨p, hmem⟩ := hex
    rw [from_slice_encoded_items _ hwf hlen, hval]
    dsimp only
    have hcfgs : st.babe_next_config_data_index.isSome :=
      validateItems_configdata_mem hval hmem
    have hepoch : st.babe_next_epoch_data_index.isNone := by
      cases hopt : st.babe_next_epoch_data_index with
      | none => simp
      | some z =>
        rcases validateItems_epoch_isSome hval (by simp [hopt]) with hinit | ⟨q, hq⟩
        · simp [DigestScanState.init] at hinit
        · exact absurd hq (hno q)
    rw [if_pos ⟨hcfgs, hepoch⟩]

theorem claim_c10_witness :
    (DigestRef.mk 2 [4, 66, 65, 66, 69, 4, 1, 4, 66, 65, 66, 69, 4, 2]
        none none (some 0) (some 1)).babe_next_epoch_data_index.isSome
    ∧ ((DigestRef.mk 2 [4, 66, 65, 66, 69, 4, 1, 4, 66, 65, 66, 69, 4, 2]
        none none (some 0) (some 1)).babe_next_epoch_data_index.isSome
      ∧ (DigestRef.mk 2 [4, 66, 65, 66, 69, 4, 1, 4, 66, 65, 66, 69, 4, 2]
        none none (some 0) (some 1)).babe_next_config_data_index.isSome)
    ∧ DigestRef.from_slice
        (compactEncode ([DigestItem.babeConsensus (.nextConfigData [])]
            : List DigestItem).length
          ++ ((([DigestItem.babeConsensus (.nextConfigData [])]
            : List DigestItem).map itemEncode).flatten))
      = .error .UnexpectedBabeConfigDescriptor := by
  refine ⟨?_, ?_, ?_⟩
  · exact claim_c10_config_requires_epoch.1
      [8, 4, 66, 65, 66, 69, 4, 1, 4, 66, 65, 66, 69, 4, 2]
      (DigestRef.mk 2 [4, 66, 65, 66, 69, 4, 1, 4, 66, 65, 66, 69, 4, 2]
        none none (some 0) (some 1)) rfl (by decide)
  · exact claim_c10_config_requires_epoch.2.1
      (DigestRef.mk 2 [4, 66, 65, 66, 69, 4, 1, 4, 66, 65, 66, 69, 4, 2]
        none none (some 0) (some 1)) [] [] rfl
  · exact claim_c10_config_requires_epoch.2.2
      [DigestItem.babeConsensus (.nextConfigData [])]
      ⟨none, none, none, some 0⟩ (by decide) (by decide)
      ⟨[], by decide⟩ (by intro p hp; simp at hp) rfl

end Avail
